import Mathlib

/-!
Verification of the lockfile parsing and inventory pipeline
(`scripts/parse-all.js`).

The JavaScript source is shallowly embedded: strings are `String`/`List Char`,
JSON values are the mutual inductive `JVal`/`JList`/`JFields`, file reads
(`fs.readFileSync`) are an `Option String` argument (`none` models a read
that throws, caught by each parser's `try/catch`), and a thrown `TypeError`
inside a parser loop is modelled with `Except`, whose `error` payload is the
`dependencies` array accumulated before the throw (which is exactly what the
enclosing `catch` block returns).  Regular-expression matching is embedded by
hand, following the deterministic greedy/lazy behaviour of each concrete
regex in the source.  `JSON.parse` is modelled by `jsonParse`; as a
documented model restriction it parses JSON numbers only in integer form.
-/

/-! ## Character and string scanning utilities (JS string methods) -/

/-- Membership test for the characters the JSON grammar treats as whitespace. -/
def jsonWs (c : Char) : Bool :=
  c == ' ' || c == '\t' || c == '\n' || c == '\r'

/-- JS `String.prototype.trim`, on the character list. -/
def trimSeq (cs : List Char) : List Char :=
  ((cs.dropWhile Char.isWhitespace).reverse.dropWhile Char.isWhitespace).reverse

/-- JS `String.prototype.trim`. -/
def jsTrim (s : String) : String := ⟨trimSeq s.data⟩

/-- JS `String.prototype.startsWith`. -/
def strStartsWith (s t : String) : Bool := t.data.isPrefixOf s.data

/-- JS `String.prototype.endsWith`. -/
def strEndsWith (s t : String) : Bool := t.data.isSuffixOf s.data

/-- Occurrence test for a character sequence, scanning left to right. -/
def containsSeq (needle : List Char) : List Char → Bool
  | [] => needle.isEmpty
  | c :: rest => needle.isPrefixOf (c :: rest) || containsSeq needle rest

/-- JS `String.prototype.includes`. -/
def strIncludes (s needle : String) : Bool := containsSeq needle.data s.data

/-- Split a character list at the first occurrence of `needle`, returning the
part before it and the part after it. -/
def splitFirstSeq (needle : List Char) : List Char → Option (List Char × List Char)
  | [] => none
  | c :: rest =>
    if needle.isPrefixOf (c :: rest) then some ([], (c :: rest).drop needle.length)
    else
      match splitFirstSeq needle rest with
      | some (pre, post) => some (c :: pre, post)
      | none => none

/-- Fuelled worker for JS `String.prototype.split` with a string separator. -/
def jsSplitSeqF (fuel : Nat) (sep : List Char) (cs : List Char) : List (List Char) :=
  match fuel with
  | 0 => [cs]
  | fuel' + 1 =>
    match splitFirstSeq sep cs with
    | none => [cs]
    | some (pre, post) => pre :: jsSplitSeqF fuel' sep post

/-- JS `s.split(sep)` for a non-empty string separator. -/
def jsSplitStr (sep : String) (s : String) : List String :=
  (jsSplitSeqF (s.length + 1) sep.data s.data).map (fun cs => (⟨cs⟩ : String))

/-- Interleave a separator between list parts (JS `Array.prototype.join`
restricted to string elements). -/
def joinSeq (sep : List Char) : List (List Char) → List Char
  | [] => []
  | [x] => x
  | x :: xs => x ++ sep ++ joinSeq sep xs

/-- JS `parts.join(sep)`. -/
def joinStr (sep : String) (parts : List String) : String :=
  ⟨joinSeq sep.data (parts.map String.data)⟩

/-- Remove the first occurrence of `needle` (JS `String.prototype.replace`
with a string pattern and empty replacement). -/
def removeFirstSeq (needle : List Char) : List Char → List Char
  | [] => []
  | c :: rest =>
    if needle.isPrefixOf (c :: rest) then (c :: rest).drop needle.length
    else c :: removeFirstSeq needle rest

/-- JS `s.replace(needle, '')` for a string pattern. -/
def removeFirstStr (needle : String) (s : String) : String :=
  ⟨removeFirstSeq needle.data s.data⟩

/-- Fuelled worker for JS `String.prototype.split` on the regex `/\s+/`:
tokens are maximal runs of non-whitespace, runs of whitespace collapse to a
single separator. -/
def wsSplitF (fuel : Nat) (cs : List Char) : List (List Char) :=
  match fuel with
  | 0 => [cs]
  | fuel' + 1 =>
    match cs.drop (cs.takeWhile (fun c => !c.isWhitespace)).length with
    | [] => [cs.takeWhile (fun c => !c.isWhitespace)]
    | rest =>
      cs.takeWhile (fun c => !c.isWhitespace) ::
        wsSplitF fuel' (rest.dropWhile Char.isWhitespace)

/-- JS `s.split(/\s+/)`. -/
def wsSplitStr (s : String) : List String :=
  (wsSplitF (s.length + 1) s.data).map (fun cs => (⟨cs⟩ : String))

/-- ASCII lowercasing, as applied by `String.prototype.toLowerCase` to the
package names appearing here. -/
def lowerStr (s : String) : String := ⟨s.data.map Char.toLower⟩

/-- Test for the regex `/^[A-Z]/`. -/
def startsUpperAZ (s : String) : Bool :=
  match s.data with
  | c :: _ => decide ('A' ≤ c) && decide (c ≤ 'Z')
  | [] => false

/-! ## The JavaScript value model -/

mutual
/-- A JavaScript value, as far as this script can observe one: the JSON
values plus `undefined` (the result of reading an absent property). -/
inductive JVal where
  | undef
  | jnull
  | jbool (b : Bool)
  | jnum (n : Int)
  | jstr (s : String)
  | jarr (elems : JList)
  | jobj (fields : JFields)

/-- Elements of a JSON array. -/
inductive JList where
  | nil
  | cons (v : JVal) (t : JList)

/-- Fields of a JSON object, in insertion order. -/
inductive JFields where
  | nil
  | cons (k : String) (v : JVal) (t : JFields)
end

mutual
/-- A size measure on `JVal`, used as recursion fuel by the functions that
walk a value. -/
def jsize : JVal → Nat
  | .undef | .jnull | .jbool _ | .jnum _ => 1
  | .jstr s => 1 + 3 * s.length
  | .jarr xs => 1 + lsize xs
  | .jobj fs => 1 + fsize fs

/-- Size of an array's element list. -/
def lsize : JList → Nat
  | .nil => 0
  | .cons v t => 1 + jsize v + lsize t

/-- Size of an object's field list. -/
def fsize : JFields → Nat
  | .nil => 0
  | .cons _ v t => 1 + jsize v + fsize t
end

/-- Convert the element spine to a `List`. -/
def JList.toList : JList → List JVal
  | .nil => []
  | .cons v t => v :: toList t

/-- Convert the field spine to a `List`. -/
def JFields.toList : JFields → List (String × JVal)
  | .nil => []
  | .cons k v t => (k, v) :: toList t

/-- First field with the given key. -/
def flookup : JFields → String → Option JVal
  | .nil, _ => none
  | .cons k v t, key => if k = key then some v else flookup t key

/-- JS property read `v[key]` on a value that is not `null`/`undefined`:
missing properties read as `undefined`. -/
def getF (v : JVal) (key : String) : JVal :=
  match v with
  | .jobj fs => (flookup fs key).getD .undef
  | _ => (.undef : JVal)

/-- JS ToBoolean. -/
def truthy : JVal → Bool
  | .undef | .jnull => false
  | .jbool b => b
  | .jnum n => n != 0
  | .jstr s => s != ""
  | .jarr _ | .jobj _ => true

/-- Test for `undefined`. -/
def isUndef : JVal → Bool
  | .undef => true
  | _ => false

/-- Values on which a property read throws a `TypeError`. -/
def isNullish : JVal → Bool
  | .undef | .jnull => true
  | _ => false

/-- Test for `typeof v === 'object'` (arrays and `null` included). -/
def isObjectType : JVal → Bool
  | .jobj _ | .jarr _ | .jnull => true
  | _ => false

/-- JS `a || b`. -/
def jsOr (a b : JVal) : JVal := if truthy a then a else b

/-- Worker for `Object.entries` on an array, with the running index. -/
def enumPairs (i : Nat) : List JVal → List (String × JVal)
  | [] => []
  | v :: t => (toString i, v) :: enumPairs (i + 1) t

/-- Worker for `Object.entries` on a string, with the running index. -/
def charEntries (i : Nat) : List Char → List (String × JVal)
  | [] => []
  | c :: t => (toString i, JVal.jstr ⟨[c]⟩) :: charEntries (i + 1) t

/-- `Object.entries` on a value that is not `null`/`undefined`. -/
def entriesOf : JVal → List (String × JVal)
  | .jobj fs => fs.toList
  | .jarr xs => enumPairs 0 xs.toList
  | .jstr s => charEntries 0 s.data
  | _ => []

/-- `Object.values` on a value that is not `null`/`undefined`. -/
def valuesOf (v : JVal) : List JVal := (entriesOf v).map (fun p => p.2)

/-- JS object member insertion: an existing key keeps its position and takes
the new value, a new key is appended. -/
def objInsert (fs : JFields) (key : String) (v : JVal) : JFields :=
  match fs with
  | .nil => .cons key v .nil
  | .cons k w t => if k = key then .cons k v t else .cons k w (objInsert t key v)

/-- Left fold of `objInsert` over parsed members. -/
def buildObjAux : JFields → List (String × JVal) → JFields
  | fs, [] => fs
  | fs, (k, v) :: rest => buildObjAux (objInsert fs k v) rest

/-- Build an object from parsed members, with JS duplicate-key semantics. -/
def buildObj (ms : List (String × JVal)) : JFields := buildObjAux .nil ms

/-- String conversion of a `JVal`, fuelled; JS template-literal coercion
(`String(v)`), with `Array.prototype.join` mapping `null`/`undefined`
elements to the empty string. -/
def jsToStringF : Nat → JVal → String
  | 0, _ => ""
  | fuel + 1, v =>
    match v with
    | .undef => "undefined"
    | .jnull => "null"
    | .jbool true => "true"
    | .jbool false => "false"
    | .jnum n => toString n
    | .jstr s => s
    | .jobj _ => "[object Object]"
    | .jarr xs =>
      joinStr "," (xs.toList.map (fun x =>
        match x with
        | .jnull | .undef => ""
        | _ => jsToStringF fuel x))

/-- JS string coercion of a value. -/
def jsToString (v : JVal) : String := jsToStringF (jsize v) v

/-! ## JSON.parse model -/

/-- Skip JSON whitespace. -/
def skipWs (cs : List Char) : List Char := cs.dropWhile jsonWs

/-- Value of a hexadecimal digit. -/
def hexVal (c : Char) : Option Nat :=
  if decide ('0' ≤ c) && decide (c ≤ '9') then some (c.toNat - '0'.toNat)
  else if decide ('a' ≤ c) && decide (c ≤ 'f') then some (c.toNat - 'a'.toNat + 10)
  else if decide ('A' ≤ c) && decide (c ≤ 'F') then some (c.toNat - 'A'.toNat + 10)
  else none

/-- Body of a JSON string literal (after the opening quote), with the usual
escapes; returns the decoded string and the input after the closing quote. -/
def jstrBody : List Char → List Char → Option (String × List Char)
  | [], _ => none
  | '"' :: rest, acc => some (⟨acc.reverse⟩, rest)
  | '\\' :: 'u' :: h1 :: h2 :: h3 :: h4 :: rest, acc =>
    match hexVal h1, hexVal h2, hexVal h3, hexVal h4 with
    | some a, some b, some c, some d =>
      jstrBody rest (Char.ofNat (((a * 16 + b) * 16 + c) * 16 + d) :: acc)
    | _, _, _, _ => none
  | '\\' :: e :: rest, acc =>
    if e = '"' then jstrBody rest ('"' :: acc)
    else if e = '\\' then jstrBody rest ('\\' :: acc)
    else if e = '/' then jstrBody rest ('/' :: acc)
    else if e = 'n' then jstrBody rest ('\n' :: acc)
    else if e = 't' then jstrBody rest ('\t' :: acc)
    else if e = 'r' then jstrBody rest ('\r' :: acc)
    else if e = 'b' then jstrBody rest (Char.ofNat 8 :: acc)
    else if e = 'f' then jstrBody rest (Char.ofNat 12 :: acc)
    else none
  | c :: rest, acc => jstrBody rest (c :: acc)

/-- Numeric value of a digit run. -/
def digitsToNat (ds : List Char) : Nat :=
  ds.foldl (fun a c => a * 10 + (c.toNat - '0'.toNat)) 0

/-- Parse a JSON number starting at a digit run (sign already consumed).
Model restriction: only integer literals are accepted; a fraction or
exponent makes the parse fail. -/
def jnumTail (neg : Bool) (cs : List Char) : Option (JVal × List Char) :=
  match cs.takeWhile Char.isDigit with
  | [] => none
  | ds =>
    match cs.drop ds.length with
    | c :: rest =>
      if c = '.' || c = 'e' || c = 'E' then none
      else some (.jnum (if neg then -(digitsToNat ds : Int) else (digitsToNat ds : Int)), c :: rest)
    | [] => some (.jnum (if neg then -(digitsToNat ds : Int) else (digitsToNat ds : Int)), [])

mutual
/-- Fuelled JSON value parser. -/
def jvalF : Nat → List Char → Option (JVal × List Char)
  | 0, _ => none
  | fuel + 1, cs0 =>
    match skipWs cs0 with
    | 'n' :: 'u' :: 'l' :: 'l' :: rest => some (.jnull, rest)
    | 't' :: 'r' :: 'u' :: 'e' :: rest => some (.jbool true, rest)
    | 'f' :: 'a' :: 'l' :: 's' :: 'e' :: rest => some (.jbool false, rest)
    | '"' :: rest =>
      match jstrBody rest [] with
      | some (s, rest2) => some (.jstr s, rest2)
      | none => none
    | '[' :: rest =>
      match skipWs rest with
      | ']' :: rest2 => some (.jarr .nil, rest2)
      | _ =>
        match jarrElems fuel rest with
        | some (xs, rest2) => some (.jarr xs, rest2)
        | none => none
    | '{' :: rest =>
      match skipWs rest with
      | '}' :: rest2 => some (.jobj .nil, rest2)
      | _ =>
        match jobjMembers fuel rest with
        | some (ms, rest2) => some (.jobj (buildObj ms), rest2)
        | none => none
    | '-' :: rest => jnumTail true rest
    | c :: rest =>
      if c.isDigit then jnumTail false (c :: rest) else none
    | [] => none

/-- Fuelled parser for the elements of a non-empty JSON array. -/
def jarrElems : Nat → List Char → Option (JList × List Char)
  | 0, _ => none
  | fuel + 1, cs =>
    match jvalF fuel cs with
    | none => none
    | some (v, rest) =>
      match skipWs rest with
      | ',' :: rest2 =>
        match jarrElems fuel rest2 with
        | some (xs, rest3) => some (.cons v xs, rest3)
        | none => none
      | ']' :: rest2 => some (.cons v .nil, rest2)
      | _ => none

/-- Fuelled parser for the members of a non-empty JSON object. -/
def jobjMembers : Nat → List Char → Option (List (String × JVal) × List Char)
  | 0, _ => none
  | fuel + 1, cs =>
    match skipWs cs with
    | '"' :: rest =>
      match jstrBody rest [] with
      | none => none
      | some (k, rest2) =>
        match skipWs rest2 with
        | ':' :: rest3 =>
          match jvalF fuel rest3 with
          | none => none
          | some (v, rest4) =>
            match skipWs rest4 with
            | ',' :: rest5 =>
              match jobjMembers fuel rest5 with
              | some (ms, rest6) => some ((k, v) :: ms, rest6)
              | none => none
            | '}' :: rest5 => some ([(k, v)], rest5)
            | _ => none
        | _ => none
    | _ => none
end

/-- Model of `JSON.parse`: `none` means the call throws a `SyntaxError`. -/
def jsonParse (s : String) : Option JVal :=
  match jvalF (s.length + 1) s.data with
  | some (v, rest) =>
    match skipWs rest with
    | [] => some v
    | _ => none
  | none => none

/-! ## The dependency record -/

/-- One emitted dependency record. -/
structure Dep where
  ecosystem : String
  name : JVal
  version : JVal
  dev : JVal
  lockfile_source : String

/-! ## npm: parseNpmLockfile -/

/-- The regex replace `pkgPath.replace(/^node_modules\//, '')`. -/
def dropNodeModules (s : String) : String :=
  if strStartsWith s "node_modules/" then ⟨s.data.drop 13⟩ else s

/-- The npm v2/v3 name computation:
`pkgPath.replace(/^node_modules\//, '').split('node_modules/').pop()`. -/
def npmName (pkgPath : String) : String :=
  (jsSplitStr "node_modules/" (dropNodeModules pkgPath)).getLastD ""

/-- Loop over the `packages` entries of an npm v2/v3 lockfile.  An early
return of `acc` models the `TypeError` thrown by `pkg.version` on a `null`
entry, which the surrounding `catch` turns into returning the accumulated
`dependencies`. -/
def npmPackagesLoop (includeDev : Bool) (filePath : String) :
    List (String × JVal) → List Dep → List Dep
  | [], acc => acc
  | (pkgPath, pkg) :: rest, acc =>
    if pkgPath = "" then npmPackagesLoop includeDev filePath rest acc
    else
      let name := npmName pkgPath
      if name = "" then npmPackagesLoop includeDev filePath rest acc
      else if isNullish pkg then acc
      else if !truthy (getF pkg "version") then npmPackagesLoop includeDev filePath rest acc
      else if truthy (getF pkg "dev") && !includeDev then npmPackagesLoop includeDev filePath rest acc
      else
        npmPackagesLoop includeDev filePath rest
          (acc ++ [{ ecosystem := "npm", name := .jstr name, version := getF pkg "version",
                     dev := jsOr (getF pkg "dev") (.jbool false), lockfile_source := filePath }])

/-- The recursive `parseDepsV1` over the entries of an npm v1 `dependencies`
object, fuelled.  `Except.error acc` models a `TypeError` (property read on
a `null` entry) unwinding to the `catch`. -/
def v1Loop (includeDev : Bool) (filePath : String) :
    Nat → List (String × JVal) → Bool → List Dep → Except (List Dep) (List Dep)
  | 0, _, _, acc => .ok acc
  | _ + 1, [], _, acc => .ok acc
  | fuel + 1, (name, info) :: rest, isDev, acc =>
    if isNullish info then .error acc
    else if !truthy (getF info "version") then v1Loop includeDev filePath fuel rest isDev acc
    else if isDev && !includeDev then v1Loop includeDev filePath fuel rest isDev acc
    else
      let acc2 := acc ++ [{ ecosystem := "npm", name := .jstr name,
                            version := getF info "version", dev := .jbool isDev,
                            lockfile_source := filePath }]
      if truthy (getF info "dependencies") then
        match v1Loop includeDev filePath fuel (entriesOf (getF info "dependencies")) isDev acc2 with
        | .error a => .error a
        | .ok a => v1Loop includeDev filePath fuel rest isDev a
      else v1Loop includeDev filePath fuel rest isDev acc2

/-- Parser for `package-lock.json` (npm, v1-v3). -/
def parseNpmLockfile (includeDev : Bool) (filePath : String) (content : Option String) :
    List Dep :=
  match content with
  | none => []
  | some c =>
    match jsonParse c with
    | none => []
    | some lock =>
      if isNullish lock then []
      else if truthy (getF lock "packages") then
        npmPackagesLoop includeDev filePath (entriesOf (getF lock "packages")) []
      else if truthy (getF lock "dependencies") then
        match v1Loop includeDev filePath (jsize lock) (entriesOf (getF lock "dependencies")) false [] with
        | .error a => a
        | .ok a =>
          if truthy (getF lock "devDependencies") then
            match v1Loop includeDev filePath (jsize lock) (entriesOf (getF lock "devDependencies")) true a with
            | .error b => b
            | .ok b => b
          else a
      else []

/-! ## pip: parseRequirements -/

/-- Character class `[a-zA-Z0-9_-]`. -/
def isReqNameChar (c : Char) : Bool := c.isAlpha || c.isDigit || c == '_' || c == '-'

/-- Character class `[=<>!~]`. -/
def isReqOpChar (c : Char) : Bool := c == '=' || c == '<' || c == '>' || c == '!' || c == '~'

/-- Character class `[^\s;#]`. -/
def isReqVerChar (c : Char) : Bool := !c.isWhitespace && c != ';' && c != '#'

/-- Match of `/^([a-zA-Z0-9_-]+(?:\[[^\]]+\])?)\s*([=<>!~]+)?\s*([^\s;#]+)?/`
against a trimmed line; returns the name capture with the `[extras]` suffix
already removed (the source strips it right away with
`name.replace(/\[.*\]$/, '')`) and the optional version capture. -/
def reqLineMatch (cs : List Char) : Option (String × Option String) :=
  let nm := cs.takeWhile isReqNameChar
  if nm.isEmpty then none
  else
    let r1 := cs.drop nm.length
    let r2 :=
      match r1 with
      | '[' :: tl =>
        let inner := tl.takeWhile (fun c => c != ']')
        if inner.isEmpty then r1
        else
          match tl.drop inner.length with
          | ']' :: tl2 => tl2
          | _ => r1
      | _ => r1
    let r3 := (r2.dropWhile Char.isWhitespace).dropWhile isReqOpChar
    let ver := (r3.dropWhile Char.isWhitespace).takeWhile isReqVerChar
    some (⟨nm⟩, if ver.isEmpty then none else some ⟨ver⟩)

/-- The version cleanup `version.replace(/[,;].*$/, '').trim()`. -/
def cleanVersion (v : String) : String :=
  jsTrim ⟨v.data.takeWhile (fun c => c != ',' && c != ';')⟩

/-- One line of a requirements file, folded into the accumulator. -/
def reqLineStep (filePath : String) (acc : List Dep) (line : String) : List Dep :=
  let trimmed := jsTrim line
  if trimmed = "" || strStartsWith trimmed "#" || strStartsWith trimmed "-" then acc
  else
    match reqLineMatch trimmed.data with
    | none => acc
    | some (name, verOpt) =>
      let version := cleanVersion (verOpt.getD "*")
      if name = "" then acc
      else
        acc ++ [{ ecosystem := "pypi", name := .jstr (lowerStr name), version := .jstr version,
                  dev := .jbool (strIncludes filePath "dev" || strIncludes filePath "test"),
                  lockfile_source := filePath }]

/-- Parser for `requirements.txt` (pip).  Note that it reads the
dev-inclusion flag nowhere: dev-classified records are emitted with the flag
set, never dropped. -/
def parseRequirements (filePath : String) (content : Option String) : List Dep :=
  match content with
  | none => []
  | some c => (jsSplitStr "\n" c).foldl (reqLineStep filePath) []

/-! ## Poetry and Cargo: TOML-ish block matching -/

/-- Attempt of `key\s*=\s*"([^"]+)"` at the current position. -/
def matchKeyAt (key : List Char) (cs : List Char) : Option (List Char) :=
  if key.isPrefixOf cs then
    match (cs.drop key.length).dropWhile Char.isWhitespace with
    | '=' :: r2 =>
      match r2.dropWhile Char.isWhitespace with
      | '"' :: r4 =>
        let cap := r4.takeWhile (fun c => c != '"')
        if cap.isEmpty then none
        else
          match r4.drop cap.length with
          | '"' :: _ => some cap
          | _ => none
      | _ => none
    | _ => none
  else none

/-- Scan for the first line-anchored match of `^key\s*=\s*"([^"]+)"` (the
`/m` flag lets `^` match at the start and after each newline). -/
def matchKeyFrom (key : List Char) : List Char → Bool → Option (List Char)
  | [], _ => none
  | c :: rest, atLineStart =>
    if atLineStart then
      match matchKeyAt key (c :: rest) with
      | some cap => some cap
      | none => matchKeyFrom key rest (c == '\n')
    else matchKeyFrom key rest (c == '\n')

/-- First match of `/^key\s*=\s*"([^"]+)"/m` in a block. -/
def tomlKeyMatch (key : String) (block : String) : Option String :=
  (matchKeyFrom key.data block.data true).map (fun cs => (⟨cs⟩ : String))

/-- One `[[package]]` block of a poetry.lock, folded into the accumulator. -/
def poetryBlockStep (includeDev : Bool) (filePath : String) (acc : List Dep) (block : String) :
    List Dep :=
  match tomlKeyMatch "name" block, tomlKeyMatch "version" block with
  | some nm, some ver =>
    let isDev : JVal :=
      match tomlKeyMatch "category" block with
      | none => .jnull
      | some cat => .jbool (cat == "dev")
    if truthy isDev && !includeDev then acc
    else
      acc ++ [{ ecosystem := "pypi", name := .jstr (lowerStr nm), version := .jstr ver,
                dev := isDev, lockfile_source := filePath }]
  | _, _ => acc

/-- Parser for `poetry.lock`. -/
def parsePoetryLock (includeDev : Bool) (filePath : String) (content : Option String) :
    List Dep :=
  match content with
  | none => []
  | some c =>
    ((jsSplitStr "[[package]]" c).drop 1).foldl (poetryBlockStep includeDev filePath) []

/-- One `[[package]]` block of a Cargo.lock, folded into the accumulator. -/
def cargoBlockStep (filePath : String) (acc : List Dep) (block : String) : List Dep :=
  match tomlKeyMatch "name" block, tomlKeyMatch "version" block with
  | some nm, some ver =>
    acc ++ [{ ecosystem := "cargo", name := .jstr nm, version := .jstr ver,
              dev := .jbool false, lockfile_source := filePath }]
  | _, _ => acc

/-- Parser for `Cargo.lock`. -/
def parseCargoLock (filePath : String) (content : Option String) : List Dep :=
  match content with
  | none => []
  | some c => ((jsSplitStr "[[package]]" c).drop 1).foldl (cargoBlockStep filePath) []

/-! ## Go: parseGoSum and parseGoMod -/

/-- One line of a go.sum, folded into the accumulator. -/
def goSumLineStep (filePath : String) (acc : List Dep) (line : String) : List Dep :=
  let trimmed := jsTrim line
  if trimmed = "" then acc
  else
    let parts := wsSplitStr trimmed
    if parts.length < 2 then acc
    else
      let name := parts.headD ""
      let version0 := (parts.drop 1).headD ""
      let version :=
        if strEndsWith version0 "/go.mod" then removeFirstStr "/go.mod" version0 else version0
      if name = "" || version = "" then acc
      else
        acc ++ [{ ecosystem := "go", name := .jstr name, version := .jstr version,
                  dev := .jbool false, lockfile_source := filePath }]

/-- Parser for `go.sum`. -/
def parseGoSum (filePath : String) (content : Option String) : List Dep :=
  match content with
  | none => []
  | some c => (jsSplitStr "\n" c).foldl (goSumLineStep filePath) []

/-- The regex replace `trimmed.replace(/^require\s+/, '')`, applied to lines
that start with `require ` (7 characters of `require`, then the whitespace
run). -/
def stripRequire (s : String) : String := ⟨(s.data.drop 7).dropWhile Char.isWhitespace⟩

/-- One line of a go.mod, folded into the `(inRequireBlock, acc)` state. -/
def goModLineStep (filePath : String) (st : Bool × List Dep) (line : String) :
    Bool × List Dep :=
  let inReq := st.1
  let acc := st.2
  let trimmed := jsTrim line
  if trimmed = "" || strStartsWith trimmed "//" then (inReq, acc)
  else if strStartsWith trimmed "require (" then (true, acc)
  else if inReq && strStartsWith trimmed ")" then (false, acc)
  else
    let candidate : Option String :=
      if inReq then some trimmed
      else if strStartsWith trimmed "require " then some (stripRequire trimmed)
      else none
    match candidate with
    | none => (inReq, acc)
    | some cand =>
      let cleaned := jsTrim ((jsSplitStr "//" cand).headD "")
      let parts := wsSplitStr cleaned
      if parts.length < 2 then (inReq, acc)
      else
        let name := parts.headD ""
        let version := (parts.drop 1).headD ""
        if name = "" || version = "" then (inReq, acc)
        else
          (inReq, acc ++ [{ ecosystem := "go", name := .jstr name, version := .jstr version,
                            dev := .jbool false, lockfile_source := filePath }])

/-- Parser for `go.mod`. -/
def parseGoMod (filePath : String) (content : Option String) : List Dep :=
  match content with
  | none => []
  | some c => ((jsSplitStr "\n" c).foldl (goModLineStep filePath) (false, [])).2

/-! ## RubyGems: parseGemfileLock -/

/-- Character class `[A-Za-z0-9_.-]`. -/
def isGemNameChar (c : Char) : Bool :=
  c.isAlpha || c.isDigit || c == '_' || c == '.' || c == '-'

/-- Match of `/^\s{4}([A-Za-z0-9_.-]+)\s+\(([^)]+)\)/` against a raw line. -/
def gemLineMatch (cs : List Char) : Option (String × String) :=
  match cs with
  | c1 :: c2 :: c3 :: c4 :: rest =>
    if c1.isWhitespace && c2.isWhitespace && c3.isWhitespace && c4.isWhitespace then
      let nm := rest.takeWhile isGemNameChar
      if nm.isEmpty then none
      else
        match rest.drop nm.length with
        | c5 :: _ =>
          if !c5.isWhitespace then none
          else
            match (rest.drop nm.length).dropWhile Char.isWhitespace with
            | '(' :: r3 =>
              let ver := r3.takeWhile (fun c => c != ')')
              if ver.isEmpty then none
              else
                match r3.drop ver.length with
                | ')' :: _ => some (⟨nm⟩, ⟨ver⟩)
                | _ => none
            | _ => none
        | [] => none
    else none
  | _ => none

/-- One line of a Gemfile.lock, folded into the `(inSpecs, acc)` state. -/
def gemLineStep (filePath : String) (st : Bool × List Dep) (line : String) :
    Bool × List Dep :=
  let inSpecs := st.1
  let acc := st.2
  if jsTrim line = "specs:" then (true, acc)
  else if inSpecs && jsTrim line = "" then (inSpecs, acc)
  else
    let inSpecs2 := if inSpecs && startsUpperAZ (jsTrim line) then false else inSpecs
    if !inSpecs2 then (inSpecs2, acc)
    else
      match gemLineMatch line.data with
      | none => (inSpecs2, acc)
      | some (nm, verRaw) =>
        let version := jsTrim ((jsSplitStr "," verRaw).headD "")
        if nm = "" || version = "" then (inSpecs2, acc)
        else
          (inSpecs2, acc ++ [{ ecosystem := "rubygems", name := .jstr nm,
                               version := .jstr version, dev := .jbool false,
                               lockfile_source := filePath }])

/-- Parser for `Gemfile.lock`. -/
def parseGemfileLock (filePath : String) (content : Option String) : List Dep :=
  match content with
  | none => []
  | some c => ((jsSplitStr "\n" c).foldl (gemLineStep filePath) (false, [])).2

/-! ## Composer: parseComposerLock -/

/-- Loop over one of the `packages` / `packages-dev` arrays; `Except.error`
models the `TypeError` thrown by `pkg.name` on a `null` element. -/
def composerLoop (filePath : String) (isDev : Bool) :
    List JVal → List Dep → Except (List Dep) (List Dep)
  | [], acc => .ok acc
  | pkg :: rest, acc =>
    if isNullish pkg then .error acc
    else if !truthy (getF pkg "name") || !truthy (getF pkg "version") then
      composerLoop filePath isDev rest acc
    else
      composerLoop filePath isDev rest
        (acc ++ [{ ecosystem := "composer", name := getF pkg "name",
                   version := getF pkg "version", dev := .jbool isDev,
                   lockfile_source := filePath }])

/-- Parser for `composer.lock`. -/
def parseComposerLock (includeDev : Bool) (filePath : String) (content : Option String) :
    List Dep :=
  match content with
  | none => []
  | some c =>
    match jsonParse c with
    | none => []
    | some lock =>
      if isNullish lock then []
      else
        let packages := match getF lock "packages" with | .jarr xs => xs.toList | _ => []
        let packagesDev := match getF lock "packages-dev" with | .jarr xs => xs.toList | _ => []
        match composerLoop filePath false packages [] with
        | .error a => a
        | .ok a =>
          if includeDev then
            match composerLoop filePath true packagesDev a with
            | .error b => b
            | .ok b => b
          else a

/-! ## NuGet: parseNugetLock -/

/-- Inner loop over the `[name, info]` entries of one target framework. -/
def nugetEntryStep (filePath : String) (acc : List Dep) (p : String × JVal) : List Dep :=
  if !truthy p.2 || !isObjectType p.2 then acc
  else
    let version := jsOr (getF p.2 "resolved") (jsOr (getF p.2 "version") (getF p.2 "requested"))
    if !truthy version then acc
    else
      acc ++ [{ ecosystem := "nuget", name := .jstr p.1, version := version,
                dev := .jbool false, lockfile_source := filePath }]

/-- Outer loop over `Object.values(lock.dependencies || {})`. -/
def nugetTargetStep (filePath : String) (acc : List Dep) (target : JVal) : List Dep :=
  if !truthy target || !isObjectType target then acc
  else (entriesOf target).foldl (nugetEntryStep filePath) acc

/-- Parser for `packages.lock.json` (NuGet). -/
def parseNugetLock (filePath : String) (content : Option String) : List Dep :=
  match content with
  | none => []
  | some c =>
    match jsonParse c with
    | none => []
    | some lock =>
      if isNullish lock then []
      else
        (valuesOf (jsOr (getF lock "dependencies") (.jobj .nil))).foldl
          (nugetTargetStep filePath) []

/-! ## Maven: parseMavenPom -/

/-- The literal `<dependencyManagement>`. -/
def dmOpenTag : List Char := "<dependencyManagement>".data

/-- The literal `</dependencyManagement>`. -/
def dmCloseTag : List Char := "</dependencyManagement>".data

/-- The literal `<dependency>`. -/
def depOpenTag : List Char := "<dependency>".data

/-- The literal `</dependency>`. -/
def depCloseTag : List Char := "</dependency>".data

/-- Fuelled worker for the global replace
`content.replace(/<dependencyManagement>[\s\S]*?<\/dependencyManagement>/g, '')`:
at each position, a lazy match runs from an opening tag to the nearest
closing tag; matched spans are dropped and scanning resumes after them. -/
def stripDMF : Nat → List Char → List Char
  | 0, cs => cs
  | fuel + 1, cs =>
    match cs with
    | [] => []
    | c :: rest =>
      if dmOpenTag.isPrefixOf (c :: rest) then
        match splitFirstSeq dmCloseTag ((c :: rest).drop dmOpenTag.length) with
        | some (_, after) => stripDMF fuel after
        | none => c :: stripDMF fuel rest
      else c :: stripDMF fuel rest

/-- Strip all `<dependencyManagement>...</dependencyManagement>` spans. -/
def stripDM (cs : List Char) : List Char := stripDMF (cs.length + 1) cs

/-- Fuelled worker for the global match
`content.match(/<dependency>[\s\S]*?<\/dependency>/g)`. -/
def depBlocksF : Nat → List Char → List (List Char)
  | 0, _ => []
  | fuel + 1, cs =>
    match cs with
    | [] => []
    | c :: rest =>
      if depOpenTag.isPrefixOf (c :: rest) then
        match splitFirstSeq depCloseTag ((c :: rest).drop depOpenTag.length) with
        | some (mid, after) => (depOpenTag ++ mid ++ depCloseTag) :: depBlocksF fuel after
        | none => depBlocksF fuel rest
      else depBlocksF fuel rest

/-- All lazily-matched `<dependency>...</dependency>` blocks. -/
def depBlocks (cs : List Char) : List (List Char) := depBlocksF (cs.length + 1) cs

/-- Scan for the first match of `<tag>([^<]+)</tag>`. -/
def matchTagFrom (opn cls : List Char) : List Char → Option (List Char)
  | [] => none
  | c :: rest =>
    if opn.isPrefixOf (c :: rest) then
      let after := (c :: rest).drop opn.length
      let cap := after.takeWhile (fun ch => ch != '<')
      if !cap.isEmpty && cls.isPrefixOf (after.drop cap.length) then some cap
      else matchTagFrom opn cls rest
    else matchTagFrom opn cls rest

/-- First match of `/<tag>([^<]+)<\/tag>/` in a block. -/
def xmlTag (tag : String) (block : List Char) : Option String :=
  (matchTagFrom ("<" ++ tag ++ ">").data ("</" ++ tag ++ ">").data block).map
    (fun cs => (⟨cs⟩ : String))

/-- One `<dependency>` block, folded into the accumulator. -/
def mavenBlockStep (includeDev : Bool) (filePath : String) (acc : List Dep)
    (block : List Char) : List Dep :=
  match xmlTag "groupId" block, xmlTag "artifactId" block, xmlTag "version" block with
  | some g0, some a0, some v0 =>
    let groupId := jsTrim g0
    let artifactId := jsTrim a0
    let version := jsTrim v0
    let scope := match xmlTag "scope" block with | some s0 => jsTrim s0 | none => ""
    if groupId = "" || artifactId = "" || version = "" then acc
    else if strIncludes version "$\x7b" then acc
    else
      let isDev := scope == "test"
      if isDev && !includeDev then acc
      else
        acc ++ [{ ecosystem := "maven", name := .jstr (groupId ++ ":" ++ artifactId),
                  version := .jstr version, dev := .jbool isDev,
                  lockfile_source := filePath }]
  | _, _, _ => acc

/-- Parser for `pom.xml` (Maven). -/
def parseMavenPom (includeDev : Bool) (filePath : String) (content : Option String) :
    List Dep :=
  match content with
  | none => []
  | some c =>
    (depBlocks (stripDM c.data)).foldl (mavenBlockStep includeDev filePath) []

/-! ## Dispatcher, deduplication, inventory assembly -/

/-- The file system as the parsers observe it: `none` means reading the path
throws. -/
abbrev FS := String → Option String

/-- The path portion of a `kind:path` entry: everything after the first
colon, rejoined (`const [type, ...pathParts] = entry.split(':')` followed by
`pathParts.join(':')`). -/
def entryPath (entry : String) : String :=
  joinStr ":" ((jsSplitStr ":" entry).tail)

/-- The kind portion of a `kind:path` entry. -/
def entryKind (entry : String) : String :=
  (jsSplitStr ":" entry).headD ""

/-- One iteration of the dispatch loop in `main`: returns the records this
entry contributes and the warnings (`console.warn`) it emits.  An entry with
an empty path is skipped before the switch; an unrecognized kind falls to
the default case, which only warns. -/
def processEntry (includeDev : Bool) (fs : FS) (entry : String) :
    List Dep × List String :=
  let type := entryKind entry
  let filePath := entryPath entry
  if filePath = "" then ([], [])
  else
    let content := fs filePath
    if type = "npm" then (parseNpmLockfile includeDev filePath content, [])
    else if type = "requirements" then (parseRequirements filePath content, [])
    else if type = "poetry" then (parsePoetryLock includeDev filePath content, [])
    else if type = "go" then
      ((if strEndsWith filePath "go.sum" then parseGoSum filePath content
        else parseGoMod filePath content), [])
    else if type = "rubygems" then (parseGemfileLock filePath content, [])
    else if type = "cargo" then (parseCargoLock filePath content, [])
    else if type = "composer" then (parseComposerLock includeDev filePath content, [])
    else if type = "nuget" then (parseNugetLock filePath content, [])
    else if type = "maven" then (parseMavenPom includeDev filePath content, [])
    else ([], ["Unknown lockfile type: " ++ type])

/-- The dispatch loop over the entry list, concatenating records and
warnings in order. -/
def runEntries (includeDev : Bool) (fs : FS) : List String → List Dep × List String
  | [] => ([], [])
  | e :: rest =>
    let r := processEntry includeDev fs e
    let rr := runEntries includeDev fs rest
    (r.1 ++ rr.1, r.2 ++ rr.2)

/-- The deduplication key `` `${dep.ecosystem}:${dep.name}:${dep.version}` ``. -/
def dedupKey (d : Dep) : String :=
  d.ecosystem ++ ":" ++ jsToString d.name ++ ":" ++ jsToString d.version

/-- The `seen`-set filter in `main`, with the set as the list of keys added
so far. -/
def dedupAux : List Dep → List String → List Dep
  | [], _ => []
  | d :: rest, seen =>
    if seen.contains (dedupKey d) then dedupAux rest seen
    else d :: dedupAux rest (dedupKey d :: seen)

/-- Deduplication of the concatenated record list. -/
def dedup (l : List Dep) : List Dep := dedupAux l []

/-- The record list `main` hands to `writeInventory`: all entries parsed in
order, then deduplicated.  An empty `LOCKFILES` writes an empty inventory
without splitting. -/
def mainRecords (includeDev : Bool) (fs : FS) (lockfiles : String) : List Dep :=
  if lockfiles = "" then []
  else dedup (runEntries includeDev fs (jsSplitStr "," lockfiles)).1

/-- The warnings `main` emits while dispatching. -/
def mainWarnings (includeDev : Bool) (fs : FS) (lockfiles : String) : List String :=
  if lockfiles = "" then []
  else (runEntries includeDev fs (jsSplitStr "," lockfiles)).2

/-- Serialization of one record in `writeInventory`: the `dev` key is
spread in when `dev !== undefined`, the `lockfile_source` key when the
value is truthy. -/
def serializeDep (d : Dep) : List (String × JVal) :=
  [("ecosystem", JVal.jstr d.ecosystem), ("name", d.name), ("version", d.version)]
    ++ (if isUndef d.dev then [] else [("dev", d.dev)])
    ++ (if d.lockfile_source = "" then [] else [("lockfile_source", JVal.jstr d.lockfile_source)])

/-- The `dependencies` array of the written inventory document. -/
def inventoryDeps (includeDev : Bool) (fs : FS) (lockfiles : String) :
    List (List (String × JVal)) :=
  (mainRecords includeDev fs lockfiles).map serializeDep

/-- The nine recognized entry kinds. -/
def knownKinds : List String :=
  ["npm", "requirements", "poetry", "go", "rubygems", "cargo", "composer", "nuget", "maven"]

/-! ## Record-shape predicates and the spec-side deduplicator -/

/-- Shape of every record the pip parser emits. -/
def ReqShape (fp : String) (d : Dep) : Prop :=
  d.ecosystem = "pypi" ∧ (∃ s, d.name = JVal.jstr s ∧ s ≠ "") ∧
    (∃ v, d.version = JVal.jstr v) ∧
    d.dev = JVal.jbool (strIncludes fp "dev" || strIncludes fp "test") ∧
    d.lockfile_source = fp

/-- Shape of every record the poetry parser emits. -/
def PoetryShape (fp : String) (d : Dep) : Prop :=
  d.ecosystem = "pypi" ∧ (∃ s, d.name = JVal.jstr s ∧ s ≠ "") ∧
    (∃ v, d.version = JVal.jstr v ∧ v ≠ "") ∧
    (d.dev = JVal.jnull ∨ ∃ b, d.dev = JVal.jbool b) ∧
    d.lockfile_source = fp

/-- Shape of every record the go.sum and go.mod parsers emit. -/
def GoShape (fp : String) (d : Dep) : Prop :=
  d.ecosystem = "go" ∧ (∃ s, d.name = JVal.jstr s ∧ s ≠ "") ∧
    (∃ v, d.version = JVal.jstr v ∧ v ≠ "") ∧
    d.dev = JVal.jbool false ∧ d.lockfile_source = fp

/-- Shape of every record the Gemfile.lock parser emits. -/
def GemShape (fp : String) (d : Dep) : Prop :=
  d.ecosystem = "rubygems" ∧ (∃ s, d.name = JVal.jstr s ∧ s ≠ "") ∧
    (∃ v, d.version = JVal.jstr v ∧ v ≠ "") ∧
    d.dev = JVal.jbool false ∧ d.lockfile_source = fp

/-- Shape of every record the Cargo.lock parser emits. -/
def CargoShape (fp : String) (d : Dep) : Prop :=
  d.ecosystem = "cargo" ∧ (∃ s, d.name = JVal.jstr s ∧ s ≠ "") ∧
    (∃ v, d.version = JVal.jstr v ∧ v ≠ "") ∧
    d.dev = JVal.jbool false ∧ d.lockfile_source = fp

/-- Shape of every record the npm parser emits (v1, v2 and v3 formats). -/
def NpmShape (fp : String) (d : Dep) : Prop :=
  d.ecosystem = "npm" ∧ (∃ s, d.name = JVal.jstr s) ∧ truthy d.version = true ∧
    isUndef d.dev = false ∧ d.lockfile_source = fp

/-- Shape of every record the composer parser emits. -/
def ComposerShape (fp : String) (d : Dep) : Prop :=
  d.ecosystem = "composer" ∧ truthy d.name = true ∧ truthy d.version = true ∧
    (∃ b, d.dev = JVal.jbool b) ∧ d.lockfile_source = fp

/-- Shape of every record the NuGet parser emits. -/
def NugetShape (fp : String) (d : Dep) : Prop :=
  d.ecosystem = "nuget" ∧ (∃ s, d.name = JVal.jstr s) ∧ truthy d.version = true ∧
    d.dev = JVal.jbool false ∧ d.lockfile_source = fp

/-- Shape of every record the Maven parser emits; when the dev flag is off,
only non-dev records appear. -/
def MavenShape (includeDev : Bool) (fp : String) (d : Dep) : Prop :=
  d.ecosystem = "maven" ∧
    (∃ g a, d.name = JVal.jstr (g ++ ":" ++ a) ∧ g ≠ "" ∧ a ≠ "") ∧
    (∃ v, d.version = JVal.jstr v ∧ v ≠ "" ∧ strIncludes v "$\x7b" = false) ∧
    (∃ b, d.dev = JVal.jbool b ∧ (includeDev = false → b = false)) ∧
    d.lockfile_source = fp

/-- Specification-side deduplicator, written from the spec's words: keep
exactly the first occurrence of each key, preserving first-seen order; the
kept element carries all its original fields. -/
def keepFirstsBy (key : Dep → String) : List Dep → List Dep
  | [] => []
  | d :: rest => d :: keepFirstsBy key (rest.filter (fun e => !(key e == key d)))
termination_by l => l.length
decreasing_by
  simp only [List.length_cons]
  exact Nat.lt_succ_of_le (List.length_filter_le _ _)

/-- Records a parser classifies as non-dev (a falsy `dev` field). -/
def nonDev (d : Dep) : Bool := !truthy d.dev

/-- The record list a parser hands back whether or not its loop was cut
short by a caught exception. -/
def exPayload : Except (List Dep) (List Dep) → List Dep
  | .error a => a
  | .ok a => a

/-- The scope of a dependency block:
`scopeMatch ? scopeMatch[1].trim() : ''`. -/
def mavenScopeOf (block : List Char) : String :=
  match xmlTag "scope" block with
  | some s0 => jsTrim s0
  | none => ""

/-- A single test-scoped `<dependency>` block. -/
def mavenTestBlock : String :=
  "<dependency><groupId>g</groupId><artifactId>a</artifactId><version>3.0</version><scope>test</scope></dependency>"

/-- A pom whose only dependency sits inside `<dependencyManagement>`. -/
def mavenDMOnlyPom : String :=
  "<project><dependencyManagement><dependencies><dependency><groupId>com.ex</groupId><artifactId>lib</artifactId><version>1.0</version></dependency></dependencies></dependencyManagement></project>"

/-- A pom declaring the same coordinate once under `<dependencyManagement>`
and once as a real dependency. -/
def mavenDMPom : String :=
  "<project><dependencyManagement><dependencies><dependency><groupId>com.ex</groupId><artifactId>lib</artifactId><version>1.0</version></dependency></dependencies></dependencyManagement><dependencies><dependency><groupId>com.ex</groupId><artifactId>lib</artifactId><version>1.0</version></dependency></dependencies></project>"

/-- A well-formed v2/v3 `package-lock.json` whose `packages` object maps
`node_modules/b` to `null`; iterating it pushes the record for `a`, then
reading `pkg.version` on the `null` entry throws, so `c` is never reached
and the `catch` returns the one accumulated record. -/
def c4NpmLock : String :=
  "\x7b\"packages\": \x7b\"\": \x7b\x7d, \"node_modules/a\": \x7b\"version\": \"1.0\"\x7d, \"node_modules/b\": null, \"node_modules/c\": \x7b\"version\": \"2.0\"\x7d\x7d\x7d"

/-! ## Generic helper lemmas -/

theorem foldl_mem_invariant {α : Type} {P : Dep → Prop} {step : List Dep → α → List Dep}
    (hstep : ∀ acc x d, d ∈ step acc x → d ∈ acc ∨ P d) :
    ∀ (l : List α) (acc : List Dep) (d : Dep), d ∈ l.foldl step acc → d ∈ acc ∨ P d := by
  intro l
  induction l with
  | nil => intro acc d h; exact Or.inl h
  | cons x rest ih =>
    intro acc d h
    rcases ih (step acc x) d h with h2 | h2
    · exact hstep acc x d h2
    · exact Or.inr h2

theorem foldl_state_mem_invariant {σ α : Type} {P : Dep → Prop}
    {step : σ × List Dep → α → σ × List Dep}
    (hstep : ∀ st x d, d ∈ (step st x).2 → d ∈ st.2 ∨ P d) :
    ∀ (l : List α) (st : σ × List Dep) (d : Dep), d ∈ (l.foldl step st).2 → d ∈ st.2 ∨ P d := by
  intro l
  induction l with
  | nil => intro st d h; exact Or.inl h
  | cons x rest ih =>
    intro st d h
    rcases ih (step st x) d h with h2 | h2
    · exact hstep st x d h2
    · exact Or.inr h2

theorem lowerStr_ne_empty {s : String} (h : s ≠ "") : lowerStr s ≠ "" := by
  intro hc
  apply h
  have hd : (lowerStr s).data = [] := by rw [hc]
  have : s.data.map Char.toLower = [] := hd
  have hnil : s.data = [] := by
    cases hs : s.data with
    | nil => rfl
    | cons a t => rw [hs] at this; simp at this
  cases s with
  | mk data => simp at hnil; rw [hnil]

theorem mk_ne_empty {cs : List Char} (h : cs ≠ []) : (⟨cs⟩ : String) ≠ "" := by
  intro hc
  apply h
  have : (⟨cs⟩ : String).data = ("" : String).data := by rw [hc]
  exact this

theorem matchKeyAt_ne_nil {key cs cap : List Char} (h : matchKeyAt key cs = some cap) :
    cap ≠ [] := by
  simp only [matchKeyAt] at h
  split at h
  · split at h
    · split at h
      · split at h
        · simp at h
        · split at h
          · simp only [Option.some.injEq] at h
            subst h
            simp_all [List.isEmpty_iff]
          · simp at h
      · simp at h
    · simp at h
  · simp at h

theorem matchKeyFrom_ne_nil {key : List Char} :
    ∀ {cs : List Char} {flag : Bool} {cap : List Char},
      matchKeyFrom key cs flag = some cap → cap ≠ [] := by
  intro cs
  induction cs with
  | nil => intro flag cap h; simp [matchKeyFrom] at h
  | cons c rest ih =>
    intro flag cap h
    unfold matchKeyFrom at h
    split at h
    · split at h
      · rename_i heq
        simp only [Option.some.injEq] at h
        subst h
        exact matchKeyAt_ne_nil heq
      · exact ih h
    · exact ih h

theorem tomlKeyMatch_ne_empty {key block : String} {s : String}
    (h : tomlKeyMatch key block = some s) : s ≠ "" := by
  unfold tomlKeyMatch at h
  cases hm : matchKeyFrom key.data block.data true with
  | none => rw [hm] at h; simp at h
  | some cap =>
    rw [hm] at h
    injection h with h2
    subst h2
    exact mk_ne_empty (matchKeyFrom_ne_nil hm)

theorem reqLineStep_shape (fp : String) :
    ∀ acc line d, d ∈ reqLineStep fp acc line → d ∈ acc ∨ ReqShape fp d := by
  intro acc line d h
  simp only [reqLineStep] at h
  split at h
  · exact Or.inl h
  · split at h
    · exact Or.inl h
    · rename_i name verOpt _
      split at h
      · exact Or.inl h
      · rename_i hname
        simp only [List.mem_append, List.mem_singleton] at h
        rcases h with h | h
        · exact Or.inl h
        · subst h
          exact Or.inr ⟨rfl, ⟨lowerStr name, rfl, lowerStr_ne_empty hname⟩,
            ⟨_, rfl⟩, rfl, rfl⟩

theorem parseRequirements_shape {fp : String} {content : Option String} {d : Dep}
    (h : d ∈ parseRequirements fp content) : ReqShape fp d := by
  cases content with
  | none => simp [parseRequirements] at h
  | some c =>
    simp only [parseRequirements] at h
    rcases foldl_mem_invariant (reqLineStep_shape fp) _ [] d h with h2 | h2
    · simp at h2
    · exact h2

theorem poetryBlockStep_shape (inc : Bool) (fp : String) :
    ∀ acc block d, d ∈ poetryBlockStep inc fp acc block → d ∈ acc ∨ PoetryShape fp d := by
  intro acc block d h
  simp only [poetryBlockStep] at h
  split at h
  · rename_i nm ver hnm hver
    split at h
    · exact Or.inl h
    · simp only [List.mem_append, List.mem_singleton] at h
      rcases h with h | h
      · exact Or.inl h
      · subst h
        refine Or.inr ⟨rfl, ⟨lowerStr nm, rfl, lowerStr_ne_empty (tomlKeyMatch_ne_empty hnm)⟩,
          ⟨ver, rfl, tomlKeyMatch_ne_empty hver⟩, ?_, rfl⟩
        cases hcat : tomlKeyMatch "category" block with
        | none => simp [hcat]
        | some cat => simp [hcat]
  · exact Or.inl h

theorem parsePoetryLock_shape {inc : Bool} {fp : String} {content : Option String} {d : Dep}
    (h : d ∈ parsePoetryLock inc fp content) : PoetryShape fp d := by
  cases content with
  | none => simp [parsePoetryLock] at h
  | some c =>
    simp only [parsePoetryLock] at h
    rcases foldl_mem_invariant (poetryBlockStep_shape inc fp) _ [] d h with h2 | h2
    · simp at h2
    · exact h2

theorem cargoBlockStep_shape (fp : String) :
    ∀ acc block d, d ∈ cargoBlockStep fp acc block → d ∈ acc ∨ CargoShape fp d := by
  intro acc block d h
  simp only [cargoBlockStep] at h
  split at h
  · rename_i nm ver hnm hver
    simp only [List.mem_append, List.mem_singleton] at h
    rcases h with h | h
    · exact Or.inl h
    · subst h
      exact Or.inr ⟨rfl, ⟨nm, rfl, tomlKeyMatch_ne_empty hnm⟩,
        ⟨ver, rfl, tomlKeyMatch_ne_empty hver⟩, rfl, rfl⟩
  · exact Or.inl h

theorem parseCargoLock_shape {fp : String} {content : Option String} {d : Dep}
    (h : d ∈ parseCargoLock fp content) : CargoShape fp d := by
  cases content with
  | none => simp [parseCargoLock] at h
  | some c =>
    simp only [parseCargoLock] at h
    rcases foldl_mem_invariant (cargoBlockStep_shape fp) _ [] d h with h2 | h2
    · simp at h2
    · exact h2

theorem goSumLineStep_shape (fp : String) :
    ∀ acc line d, d ∈ goSumLineStep fp acc line → d ∈ acc ∨ GoShape fp d := by
  intro acc line d h
  simp only [goSumLineStep] at h
  repeat' split at h
  all_goals
    try dsimp only at h
    first
    | exact Or.inl h
    | (simp only [List.mem_append, List.mem_singleton] at h
       rcases h with h | h
       · exact Or.inl h
       · subst h
         refine Or.inr ⟨rfl, ⟨_, rfl, ?_⟩, ⟨_, rfl, ?_⟩, rfl, rfl⟩ <;> simp_all)

theorem parseGoSum_shape {fp : String} {content : Option String} {d : Dep}
    (h : d ∈ parseGoSum fp content) : GoShape fp d := by
  cases content with
  | none => simp [parseGoSum] at h
  | some c =>
    simp only [parseGoSum] at h
    rcases foldl_mem_invariant (goSumLineStep_shape fp) _ [] d h with h2 | h2
    · simp at h2
    · exact h2

theorem goModLineStep_shape (fp : String) :
    ∀ st line d, d ∈ (goModLineStep fp st line).2 → d ∈ st.2 ∨ GoShape fp d := by
  intro st line d h
  simp only [goModLineStep] at h
  repeat' split at h
  all_goals
    try dsimp only at h
    first
    | exact Or.inl h
    | (simp only [List.mem_append, List.mem_singleton] at h
       rcases h with h | h
       · exact Or.inl h
       · subst h
         refine Or.inr ⟨rfl, ⟨_, rfl, ?_⟩, ⟨_, rfl, ?_⟩, rfl, rfl⟩ <;> simp_all)

theorem parseGoMod_shape {fp : String} {content : Option String} {d : Dep}
    (h : d ∈ parseGoMod fp content) : GoShape fp d := by
  cases content with
  | none => simp [parseGoMod] at h
  | some c =>
    simp only [parseGoMod] at h
    rcases foldl_state_mem_invariant (goModLineStep_shape fp) _ (false, []) d h with h2 | h2
    · simp at h2
    · exact h2

theorem gemLineStep_shape (fp : String) :
    ∀ st line d, d ∈ (gemLineStep fp st line).2 → d ∈ st.2 ∨ GemShape fp d := by
  intro st line d h
  simp only [gemLineStep] at h
  repeat' split at h
  all_goals
    try dsimp only at h
    first
    | exact Or.inl h
    | (simp only [List.mem_append, List.mem_singleton] at h
       rcases h with h | h
       · exact Or.inl h
       · subst h
         refine Or.inr ⟨rfl, ⟨_, rfl, ?_⟩, ⟨_, rfl, ?_⟩, rfl, rfl⟩ <;> simp_all)

theorem parseGemfileLock_shape {fp : String} {content : Option String} {d : Dep}
    (h : d ∈ parseGemfileLock fp content) : GemShape fp d := by
  cases content with
  | none => simp [parseGemfileLock] at h
  | some c =>
    simp only [parseGemfileLock] at h
    rcases foldl_state_mem_invariant (gemLineStep_shape fp) _ (false, []) d h with h2 | h2
    · simp at h2
    · exact h2

theorem mavenBlockStep_shape (inc : Bool) (fp : String) :
    ∀ acc block d, d ∈ mavenBlockStep inc fp acc block → d ∈ acc ∨ MavenShape inc fp d := by
  intro acc block d h
  simp only [mavenBlockStep] at h
  split at h
  · split at h
    · exact Or.inl h
    · rename_i hg
      split at h
      · exact Or.inl h
      · rename_i hdollar
        split at h
        · exact Or.inl h
        · rename_i hskip
          simp only [Bool.or_eq_true, decide_eq_true_eq, not_or] at hg
          simp only [List.mem_append, List.mem_singleton] at h
          rcases h with h | h
          · exact Or.inl h
          · subst h
            refine Or.inr ⟨rfl, ⟨_, _, rfl, hg.1.1, hg.1.2⟩,
              ⟨_, rfl, hg.2, by simpa using hdollar⟩, ⟨_, rfl, ?_⟩, rfl⟩
            intro hinc
            subst hinc
            simpa using hskip
  · exact Or.inl h

theorem parseMavenPom_shape {inc : Bool} {fp : String} {content : Option String} {d : Dep}
    (h : d ∈ parseMavenPom inc fp content) : MavenShape inc fp d := by
  cases content with
  | none => simp [parseMavenPom] at h
  | some c =>
    simp only [parseMavenPom] at h
    rcases foldl_mem_invariant (mavenBlockStep_shape inc fp) _ [] d h with h2 | h2
    · simp at h2
    · exact h2

theorem truthy_not_undef {x : JVal} (ht : truthy x = true) : isUndef x = false := by
  cases x <;> simp_all [truthy, isUndef]

theorem isUndef_jsOr_false (x : JVal) : isUndef (jsOr x (JVal.jbool false)) = false := by
  by_cases ht : truthy x = true
  · simp [jsOr, ht, truthy_not_undef ht]
  · simp [jsOr, ht, isUndef]

theorem nugetEntryStep_shape (fp : String) :
    ∀ acc p d, d ∈ nugetEntryStep fp acc p → d ∈ acc ∨ NugetShape fp d := by
  intro acc p d h
  simp only [nugetEntryStep] at h
  split at h
  · exact Or.inl h
  · split at h
    · exact Or.inl h
    · rename_i hver
      simp only [List.mem_append, List.mem_singleton] at h
      rcases h with h | h
      · exact Or.inl h
      · subst h
        refine Or.inr ⟨rfl, ⟨_, rfl⟩, ?_, rfl, rfl⟩
        simpa using hver

theorem nugetTargetStep_shape (fp : String) :
    ∀ acc target d, d ∈ nugetTargetStep fp acc target → d ∈ acc ∨ NugetShape fp d := by
  intro acc target d h
  simp only [nugetTargetStep] at h
  split at h
  · exact Or.inl h
  · exact foldl_mem_invariant (nugetEntryStep_shape fp) _ acc d h

theorem parseNugetLock_shape {fp : String} {content : Option String} {d : Dep}
    (h : d ∈ parseNugetLock fp content) : NugetShape fp d := by
  cases content with
  | none => simp [parseNugetLock] at h
  | some c =>
    simp only [parseNugetLock] at h
    split at h
    · simp at h
    · split at h
      · simp at h
      · rcases foldl_mem_invariant (nugetTargetStep_shape fp) _ [] d h with h2 | h2
        · simp at h2
        · exact h2

theorem composerLoop_shape (fp : String) (isDev : Bool) :
    ∀ (pkgs : List JVal) (acc : List Dep) (d : Dep),
      d ∈ exPayload (composerLoop fp isDev pkgs acc) → d ∈ acc ∨ ComposerShape fp d := by
  intro pkgs
  induction pkgs with
  | nil =>
    intro acc d h
    simp only [composerLoop, exPayload] at h
    exact Or.inl h
  | cons pkg rest ih =>
    intro acc d h
    simp only [composerLoop] at h
    split at h
    · simp only [exPayload] at h
      exact Or.inl h
    · split at h
      · exact ih acc d h
      · rename_i hguard
        rcases ih _ d h with h2 | h2
        · simp only [List.mem_append, List.mem_singleton] at h2
          rcases h2 with h2 | h2
          · exact Or.inl h2
          · subst h2
            refine Or.inr ⟨rfl, ?_, ?_, ⟨isDev, rfl⟩, rfl⟩ <;> simp_all
        · exact Or.inr h2

theorem parseComposerLock_shape {inc : Bool} {fp : String} {content : Option String} {d : Dep}
    (h : d ∈ parseComposerLock inc fp content) : ComposerShape fp d := by
  cases content with
  | none => simp [parseComposerLock] at h
  | some c =>
    simp only [parseComposerLock] at h
    split at h
    · simp at h
    · split at h
      · simp at h
      · rename_i lock _ _
        split at h
        · rename_i a hprod
          have h3 : d ∈ exPayload (composerLoop fp false
              (match getF lock "packages" with | .jarr xs => xs.toList | _ => []) []) := by
            rw [hprod]; simpa [exPayload] using h
          rcases composerLoop_shape fp false _ [] d h3 with h2 | h2
          · simp at h2
          · exact h2
        · rename_i a hprod
          have hmem : ∀ e : Dep, e ∈ a → e ∈ ([] : List Dep) ∨ ComposerShape fp e := by
            intro e he
            have h3 : e ∈ exPayload (composerLoop fp false
                (match getF lock "packages" with | .jarr xs => xs.toList | _ => []) []) := by
              rw [hprod]; simpa [exPayload] using he
            exact composerLoop_shape fp false _ [] e h3
          split at h
          · split at h
            · rename_i b hdev
              have h3 : d ∈ exPayload (composerLoop fp true
                  (match getF lock "packages-dev" with | .jarr xs => xs.toList | _ => []) a) := by
                rw [hdev]; simpa [exPayload] using h
              rcases composerLoop_shape fp true _ a d h3 with h2 | h2
              · rcases hmem d h2 with h4 | h4
                · simp at h4
                · exact h4
              · exact h2
            · rename_i b hdev
              have h3 : d ∈ exPayload (composerLoop fp true
                  (match getF lock "packages-dev" with | .jarr xs => xs.toList | _ => []) a) := by
                rw [hdev]; simpa [exPayload] using h
              rcases composerLoop_shape fp true _ a d h3 with h2 | h2
              · rcases hmem d h2 with h4 | h4
                · simp at h4
                · exact h4
              · exact h2
          · rcases hmem d h with h4 | h4
            · simp at h4
            · exact h4

theorem npmPackagesLoop_shape (inc : Bool) (fp : String) :
    ∀ (es : List (String × JVal)) (acc : List Dep) (d : Dep),
      d ∈ npmPackagesLoop inc fp es acc → d ∈ acc ∨ NpmShape fp d := by
  intro es
  induction es with
  | nil =>
    intro acc d h
    simp only [npmPackagesLoop] at h
    exact Or.inl h
  | cons p rest ih =>
    intro acc d h
    obtain ⟨pkgPath, pkg⟩ := p
    simp only [npmPackagesLoop] at h
    split at h
    · exact ih acc d h
    · split at h
      · exact ih acc d h
      · split at h
        · exact Or.inl h
        · split at h
          · exact ih acc d h
          · split at h
            · exact ih acc d h
            · rename_i hver _
              rcases ih _ d h with h2 | h2
              · simp only [List.mem_append, List.mem_singleton] at h2
                rcases h2 with h2 | h2
                · exact Or.inl h2
                · subst h2
                  refine Or.inr ⟨rfl, ⟨_, rfl⟩, by simpa using hver,
                    isUndef_jsOr_false _, rfl⟩
              · exact Or.inr h2

theorem v1Loop_shape (inc : Bool) (fp : String) :
    ∀ (fuel : Nat) (es : List (String × JVal)) (isDev : Bool) (acc : List Dep) (d : Dep),
      d ∈ exPayload (v1Loop inc fp fuel es isDev acc) → d ∈ acc ∨ NpmShape fp d := by
  intro fuel
  induction fuel with
  | zero =>
    intro es isDev acc d h
    simp only [v1Loop, exPayload] at h
    exact Or.inl h
  | succ fuel ih =>
    intro es isDev acc d h
    cases es with
    | nil =>
      simp only [v1Loop, exPayload] at h
      exact Or.inl h
    | cons p rest =>
      obtain ⟨name, info⟩ := p
      simp only [v1Loop] at h
      split at h
      · simp only [exPayload] at h
        exact Or.inl h
      · split at h
        · exact ih rest isDev acc d h
        · split at h
          · exact ih rest isDev acc d h
          · rename_i hver _
            have hpush : ∀ e : Dep,
                e ∈ acc ++
                  [Dep.mk "npm" (JVal.jstr name) (getF info "version") (JVal.jbool isDev) fp] →
                e ∈ acc ∨ NpmShape fp e := by
              intro e he
              simp only [List.mem_append, List.mem_singleton] at he
              rcases he with he | he
              · exact Or.inl he
              · subst he
                exact Or.inr ⟨rfl, ⟨_, rfl⟩, by simpa using hver, rfl, rfl⟩
            split at h
            · split at h
              · rename_i a hdive
                simp only [exPayload] at h
                have h3 := ih (entriesOf (getF info "dependencies")) isDev _ d
                  (by rw [hdive]; simpa [exPayload] using h)
                rcases h3 with h3 | h3
                · exact hpush d h3
                · exact Or.inr h3
              · rename_i a hdive
                rcases ih rest isDev a d h with h3 | h3
                · have h4 := ih (entriesOf (getF info "dependencies")) isDev _ d
                    (by rw [hdive]; simpa [exPayload] using h3)
                  rcases h4 with h4 | h4
                  · exact hpush d h4
                  · exact Or.inr h4
                · exact Or.inr h3
            · rcases ih rest isDev _ d h with h3 | h3
              · exact hpush d h3
              · exact Or.inr h3

theorem parseNpmLockfile_shape {inc : Bool} {fp : String} {content : Option String} {d : Dep}
    (h : d ∈ parseNpmLockfile inc fp content) : NpmShape fp d := by
  cases content with
  | none => simp [parseNpmLockfile] at h
  | some c =>
    simp only [parseNpmLockfile] at h
    split at h
    · simp at h
    · rename_i lock _
      split at h
      · simp at h
      · split at h
        · rcases npmPackagesLoop_shape inc fp _ [] d h with h2 | h2
          · simp at h2
          · exact h2
        · split at h
          · have hprodmem : ∀ (r : Except (List Dep) (List Dep)),
                v1Loop inc fp (jsize lock) (entriesOf (getF lock "dependencies")) false [] = r →
                ∀ e : Dep, e ∈ exPayload r → NpmShape fp e := by
              intro r hr e he
              have h3 := v1Loop_shape inc fp (jsize lock) _ false [] e (by rw [hr]; exact he)
              rcases h3 with h3 | h3
              · simp at h3
              · exact h3
            split at h
            · rename_i a hprod
              exact hprodmem _ hprod d (by simpa [exPayload] using h)
            · rename_i a hprod
              split at h
              · split at h
                · rename_i b hdev
                  have h3 := v1Loop_shape inc fp (jsize lock) _ true a d
                    (by rw [hdev]; simpa [exPayload] using h)
                  rcases h3 with h3 | h3
                  · exact hprodmem _ hprod d (by simpa [exPayload] using h3)
                  · exact h3
                · rename_i b hdev
                  have h3 := v1Loop_shape inc fp (jsize lock) _ true a d
                    (by rw [hdev]; simpa [exPayload] using h)
                  rcases h3 with h3 | h3
                  · exact hprodmem _ hprod d (by simpa [exPayload] using h3)
                  · exact h3
              · exact hprodmem _ hprod d (by simpa [exPayload] using h)
          · simp at h

/-! ## Dev-exclusion: relating a parser run with the flag off to a filtered
run with the flag on -/

theorem foldl_filter_rel {α : Type} {f g : List Dep → α → List Dep}
    (h : ∀ acc x, f (acc.filter nonDev) x = (g acc x).filter nonDev) :
    ∀ (l : List α) (acc : List Dep),
      l.foldl f (acc.filter nonDev) = (l.foldl g acc).filter nonDev := by
  intro l
  induction l with
  | nil => intro acc; rfl
  | cons x rest ih =>
    intro acc
    simp only [List.foldl_cons]
    rw [h acc x]
    exact ih (g acc x)

theorem poetryBlockStep_filter (fp : String) :
    ∀ acc block, poetryBlockStep false fp (acc.filter nonDev) block =
      (poetryBlockStep true fp acc block).filter nonDev := by
  intro acc block
  simp only [poetryBlockStep]
  split
  · by_cases hdev : truthy
        (match tomlKeyMatch "category" block with
         | none => JVal.jnull
         | some cat => JVal.jbool (cat == "dev")) = true
    · simp [hdev, nonDev, List.filter_append]
    · simp [hdev, nonDev, List.filter_append]
  · rfl

theorem parsePoetryLock_filter (fp : String) (content : Option String) :
    parsePoetryLock false fp content = (parsePoetryLock true fp content).filter nonDev := by
  cases content with
  | none => rfl
  | some c =>
    simp only [parsePoetryLock]
    have h0 : ([] : List Dep) = List.filter nonDev [] := rfl
    rw [h0]
    exact foldl_filter_rel (poetryBlockStep_filter fp) _ []

theorem mavenBlockStep_filter (fp : String) :
    ∀ acc block, mavenBlockStep false fp (acc.filter nonDev) block =
      (mavenBlockStep true fp acc block).filter nonDev := by
  intro acc block
  simp only [mavenBlockStep]
  split
  · split
    · rfl
    · split
      · rfl
      · by_cases hdev :
          (match xmlTag "scope" block with | some s0 => jsTrim s0 | none => "") = "test"
        all_goals
          simp [hdev, nonDev, truthy, List.filter_append, beq_iff_eq]
  · rfl

theorem parseMavenPom_filter (fp : String) (content : Option String) :
    parseMavenPom false fp content = (parseMavenPom true fp content).filter nonDev := by
  cases content with
  | none => rfl
  | some c =>
    simp only [parseMavenPom]
    have h0 : ([] : List Dep) = List.filter nonDev [] := rfl
    rw [h0]
    exact foldl_filter_rel (mavenBlockStep_filter fp) _ []

theorem truthy_jbool (b : Bool) : truthy (JVal.jbool b) = b := rfl

theorem npmPackagesLoop_filter (fp : String) :
    ∀ (es : List (String × JVal)) (acc : List Dep),
      npmPackagesLoop false fp es (acc.filter nonDev) =
        (npmPackagesLoop true fp es acc).filter nonDev := by
  intro es
  induction es with
  | nil => intro acc; simp [npmPackagesLoop]
  | cons p rest ih =>
    intro acc
    obtain ⟨pkgPath, pkg⟩ := p
    by_cases h1 : pkgPath = ""
    · simp only [npmPackagesLoop, h1, if_pos]
      exact ih acc
    · by_cases h2 : npmName pkgPath = ""
      · simp only [npmPackagesLoop, h1, h2]
        simp only [if_neg, if_pos, if_true, if_false]
        exact ih acc
      · cases h3 : isNullish pkg with
        | true => simp [npmPackagesLoop, h1, h2, h3]
        | false =>
          cases h4 : truthy (getF pkg "version") with
          | false =>
            simp [npmPackagesLoop, h1, h2, h3, h4]
            exact ih acc
          | true =>
            cases h5 : truthy (getF pkg "dev") with
            | true =>
              have hd0 : nonDev (Dep.mk "npm" (JVal.jstr (npmName pkgPath))
                  (getF pkg "version") (jsOr (getF pkg "dev") (JVal.jbool false)) fp) = false := by
                simp [nonDev, jsOr, h5]
              have hrec := ih (acc ++ [Dep.mk "npm" (JVal.jstr (npmName pkgPath))
                  (getF pkg "version") (jsOr (getF pkg "dev") (JVal.jbool false)) fp])
              simp [List.filter_append, hd0] at hrec
              simp [npmPackagesLoop, h1, h2, h3, h4, h5]
              exact hrec
            | false =>
              have hd0 : nonDev (Dep.mk "npm" (JVal.jstr (npmName pkgPath))
                  (getF pkg "version") (jsOr (getF pkg "dev") (JVal.jbool false)) fp) = true := by
                simp [nonDev, jsOr, h5, truthy_jbool]
              have hrec := ih (acc ++ [Dep.mk "npm" (JVal.jstr (npmName pkgPath))
                  (getF pkg "version") (jsOr (getF pkg "dev") (JVal.jbool false)) fp])
              simp [List.filter_append, hd0] at hrec
              simp [npmPackagesLoop, h1, h2, h3, h4, h5]
              exact hrec

theorem v1Loop_prod_inc (fp : String) :
    ∀ (fuel : Nat) (es : List (String × JVal)) (acc : List Dep),
      v1Loop false fp fuel es false acc = v1Loop true fp fuel es false acc := by
  intro fuel
  induction fuel with
  | zero => intro es acc; rfl
  | succ fuel ih =>
    intro es acc
    cases es with
    | nil => rfl
    | cons p rest =>
      obtain ⟨name, info⟩ := p
      simp only [v1Loop]
      split
      · rfl
      · split
        · exact ih rest acc
        · split
          · rename_i habs; simp at habs
          · split
            · rw [ih (entriesOf (getF info "dependencies"))]
              cases hx : v1Loop true fp fuel (entriesOf (getF info "dependencies")) false
                  (acc ++ [Dep.mk "npm" (JVal.jstr name) (getF info "version")
                    (JVal.jbool false) fp]) with
              | error a => rfl
              | ok a => exact ih rest a
            · exact ih rest _

theorem v1Loop_devskip (fp : String) :
    ∀ (fuel : Nat) (es : List (String × JVal)) (acc : List Dep),
      exPayload (v1Loop false fp fuel es true acc) = acc := by
  intro fuel
  induction fuel with
  | zero => intro es acc; rfl
  | succ fuel ih =>
    intro es acc
    cases es with
    | nil => rfl
    | cons p rest =>
      obtain ⟨name, info⟩ := p
      simp only [v1Loop]
      split
      · rfl
      · split
        · exact ih rest acc
        · split
          · exact ih rest acc
          · rename_i habs; simp at habs

theorem v1Loop_devfilter (fp : String) :
    ∀ (fuel : Nat) (es : List (String × JVal)) (acc : List Dep),
      (exPayload (v1Loop true fp fuel es true acc)).filter nonDev = acc.filter nonDev := by
  intro fuel
  induction fuel with
  | zero => intro es acc; rfl
  | succ fuel ih =>
    intro es acc
    cases es with
    | nil => rfl
    | cons p rest =>
      obtain ⟨name, info⟩ := p
      simp only [v1Loop]
      split
      · rfl
      · split
        · exact ih rest acc
        · split
          · rename_i habs; simp at habs
          · have hacc2 : (acc ++ [Dep.mk "npm" (JVal.jstr name) (getF info "version")
                (JVal.jbool true) fp]).filter nonDev = acc.filter nonDev := by
              simp [List.filter_append, nonDev, truthy_jbool]
            split
            · cases hx : v1Loop true fp fuel (entriesOf (getF info "dependencies")) true
                  (acc ++ [Dep.mk "npm" (JVal.jstr name) (getF info "version")
                    (JVal.jbool true) fp]) with
              | error a =>
                have hdive := ih (entriesOf (getF info "dependencies"))
                  (acc ++ [Dep.mk "npm" (JVal.jstr name) (getF info "version")
                    (JVal.jbool true) fp])
                rw [hx] at hdive
                simp only [exPayload] at hdive ⊢
                rw [hdive, hacc2]
              | ok a =>
                have hdive := ih (entriesOf (getF info "dependencies"))
                  (acc ++ [Dep.mk "npm" (JVal.jstr name) (getF info "version")
                    (JVal.jbool true) fp])
                rw [hx] at hdive
                simp only [exPayload] at hdive
                rw [ih rest a, hdive, hacc2]
            · rw [ih rest _, hacc2]

theorem v1Loop_prod_nondev (inc : Bool) (fp : String) :
    ∀ (fuel : Nat) (es : List (String × JVal)) (acc : List Dep),
      acc.filter nonDev = acc →
      (exPayload (v1Loop inc fp fuel es false acc)).filter nonDev =
        exPayload (v1Loop inc fp fuel es false acc) := by
  intro fuel
  induction fuel with
  | zero => intro es acc hacc; simpa [v1Loop, exPayload] using hacc
  | succ fuel ih =>
    intro es acc hacc
    cases es with
    | nil => simpa [v1Loop, exPayload] using hacc
    | cons p rest =>
      obtain ⟨name, info⟩ := p
      simp only [v1Loop]
      split
      · simpa [exPayload] using hacc
      · split
        · exact ih rest acc hacc
        · split
          · rename_i habs; simp at habs
          · have hacc2 : (acc ++ [Dep.mk "npm" (JVal.jstr name) (getF info "version")
                (JVal.jbool false) fp]).filter nonDev =
                acc ++ [Dep.mk "npm" (JVal.jstr name) (getF info "version")
                  (JVal.jbool false) fp] := by
              rw [List.filter_append, hacc]
              simp [nonDev, truthy_jbool]
            split
            · cases hx : v1Loop inc fp fuel (entriesOf (getF info "dependencies")) false
                  (acc ++ [Dep.mk "npm" (JVal.jstr name) (getF info "version")
                    (JVal.jbool false) fp]) with
              | error a =>
                have hdive := ih (entriesOf (getF info "dependencies")) _ hacc2
                rw [hx] at hdive
                simp only [exPayload] at hdive ⊢
                exact hdive
              | ok a =>
                have hdive := ih (entriesOf (getF info "dependencies")) _ hacc2
                rw [hx] at hdive
                simp only [exPayload] at hdive
                exact ih rest a hdive
            · exact ih rest _ hacc2

theorem parseNpmLockfile_filter (fp : String) (content : Option String) :
    parseNpmLockfile false fp content = (parseNpmLockfile true fp content).filter nonDev := by
  cases content with
  | none => rfl
  | some c =>
    simp only [parseNpmLockfile]
    split
    · rfl
    · rename_i lock hj
      split
      · rfl
      · split
        · have h3 := npmPackagesLoop_filter fp (entriesOf (getF lock "packages")) []
          simpa using h3
        · split
          · rw [v1Loop_prod_inc fp (jsize lock) (entriesOf (getF lock "dependencies")) []]
            have hnd := v1Loop_prod_nondev true fp (jsize lock)
              (entriesOf (getF lock "dependencies")) [] rfl
            cases hprod : v1Loop true fp (jsize lock)
                (entriesOf (getF lock "dependencies")) false [] with
            | error a =>
              rw [hprod] at hnd
              simp only [exPayload] at hnd
              dsimp only
              exact hnd.symm
            | ok a =>
              rw [hprod] at hnd
              simp only [exPayload] at hnd
              dsimp only
              split
              · have hB := v1Loop_devskip fp (jsize lock)
                  (entriesOf (getF lock "devDependencies")) a
                have hC := v1Loop_devfilter fp (jsize lock)
                  (entriesOf (getF lock "devDependencies")) a
                cases hx : v1Loop false fp (jsize lock)
                    (entriesOf (getF lock "devDependencies")) true a with
                | error b =>
                  rw [hx] at hB
                  simp only [exPayload] at hB
                  cases hy : v1Loop true fp (jsize lock)
                      (entriesOf (getF lock "devDependencies")) true a with
                  | error b2 =>
                    rw [hy] at hC
                    simp only [exPayload] at hC
                    dsimp only
                    rw [hB, hC]
                    exact hnd.symm
                  | ok b2 =>
                    rw [hy] at hC
                    simp only [exPayload] at hC
                    dsimp only
                    rw [hB, hC]
                    exact hnd.symm
                | ok b =>
                  rw [hx] at hB
                  simp only [exPayload] at hB
                  cases hy : v1Loop true fp (jsize lock)
                      (entriesOf (getF lock "devDependencies")) true a with
                  | error b2 =>
                    rw [hy] at hC
                    simp only [exPayload] at hC
                    dsimp only
                    rw [hB, hC]
                    exact hnd.symm
                  | ok b2 =>
                    rw [hy] at hC
                    simp only [exPayload] at hC
                    dsimp only
                    rw [hB, hC]
                    exact hnd.symm
              · exact hnd.symm
          · rfl

theorem composerLoop_nondev (fp : String) :
    ∀ (pkgs : List JVal) (acc : List Dep), acc.filter nonDev = acc →
      (exPayload (composerLoop fp false pkgs acc)).filter nonDev =
        exPayload (composerLoop fp false pkgs acc) := by
  intro pkgs
  induction pkgs with
  | nil => intro acc hacc; simpa [composerLoop, exPayload] using hacc
  | cons pkg rest ih =>
    intro acc hacc
    simp only [composerLoop]
    split
    · simpa [exPayload] using hacc
    · split
      · exact ih acc hacc
      · refine ih _ ?_
        rw [List.filter_append, hacc]
        simp [nonDev, truthy_jbool]

theorem composerLoop_devfilter (fp : String) :
    ∀ (pkgs : List JVal) (acc : List Dep),
      (exPayload (composerLoop fp true pkgs acc)).filter nonDev = acc.filter nonDev := by
  intro pkgs
  induction pkgs with
  | nil => intro acc; rfl
  | cons pkg rest ih =>
    intro acc
    simp only [composerLoop]
    split
    · rfl
    · split
      · exact ih acc
      · rw [ih _]
        simp [List.filter_append, nonDev, truthy_jbool]

theorem parseComposerLock_filter (fp : String) (content : Option String) :
    parseComposerLock false fp content = (parseComposerLock true fp content).filter nonDev := by
  cases content with
  | none => rfl
  | some c =>
    simp only [parseComposerLock]
    split
    · rfl
    · rename_i lock hj
      split
      · rfl
      · have hnd := composerLoop_nondev fp
          (match getF lock "packages" with | .jarr xs => xs.toList | _ => []) [] rfl
        cases hprod : composerLoop fp false
            (match getF lock "packages" with | .jarr xs => xs.toList | _ => []) [] with
        | error a =>
          rw [hprod] at hnd
          simp only [exPayload] at hnd
          dsimp only
          exact hnd.symm
        | ok a =>
          rw [hprod] at hnd
          simp only [exPayload] at hnd
          dsimp only
          have hC := composerLoop_devfilter fp
            (match getF lock "packages-dev" with | .jarr xs => xs.toList | _ => []) a
          cases hy : composerLoop fp true
              (match getF lock "packages-dev" with | .jarr xs => xs.toList | _ => []) a with
          | error b =>
            rw [hy] at hC
            simp only [exPayload] at hC
            simp only [Bool.false_eq_true, if_false, if_true]
            rw [hC]
            exact hnd.symm
          | ok b =>
            rw [hy] at hC
            simp only [exPayload] at hC
            simp only [Bool.false_eq_true, if_false, if_true]
            rw [hC]
            exact hnd.symm

/-! ## Dispatcher and deduplication helper lemmas -/

theorem dedupAux_sublist : ∀ (l : List Dep) (seen : List String), List.Sublist (dedupAux l seen) l := by
  intro l
  induction l with
  | nil => intro seen; simp [dedupAux]
  | cons d rest ih =>
    intro seen
    simp only [dedupAux]
    split
    · exact (ih seen).trans (List.sublist_cons_self d rest)
    · exact (ih (dedupKey d :: seen)).cons₂ d

theorem dedup_sublist (l : List Dep) : List.Sublist (dedup l) l := dedupAux_sublist l []

theorem dedup_mem {l : List Dep} {d : Dep} (h : d ∈ dedup l) : d ∈ l :=
  (dedup_sublist l).mem h

theorem runEntries_mem {inc : Bool} {fs : FS} :
    ∀ (es : List String) (d : Dep), d ∈ (runEntries inc fs es).1 →
      ∃ e ∈ es, d ∈ (processEntry inc fs e).1 := by
  intro es
  induction es with
  | nil => intro d h; simp [runEntries] at h
  | cons e rest ih =>
    intro d h
    simp only [runEntries, List.mem_append] at h
    rcases h with h | h
    · exact ⟨e, List.mem_cons_self e rest, h⟩
    · obtain ⟨e2, he2, hd⟩ := ih d h
      exact ⟨e2, List.mem_cons_of_mem e he2, hd⟩

theorem processEntry_dev (inc : Bool) (fs : FS) (e : String) :
    ∀ d, d ∈ (processEntry inc fs e).1 → isUndef d.dev = false := by
  intro d h
  simp only [processEntry] at h
  split at h
  · simp at h
  · split at h
    · obtain ⟨_, _, _, h4, _⟩ := parseNpmLockfile_shape h
      exact h4
    · split at h
      · obtain ⟨_, _, _, h4, _⟩ := parseRequirements_shape h
        rw [h4]; rfl
      · split at h
        · obtain ⟨_, _, _, h4, _⟩ := parsePoetryLock_shape h
          rcases h4 with h4 | ⟨b, h4⟩ <;> rw [h4] <;> rfl
        · split at h
          · split at h
            · obtain ⟨_, _, _, h4, _⟩ := parseGoSum_shape h
              rw [h4]; rfl
            · obtain ⟨_, _, _, h4, _⟩ := parseGoMod_shape h
              rw [h4]; rfl
          · split at h
            · obtain ⟨_, _, _, h4, _⟩ := parseGemfileLock_shape h
              rw [h4]; rfl
            · split at h
              · obtain ⟨_, _, _, h4, _⟩ := parseCargoLock_shape h
                rw [h4]; rfl
              · split at h
                · obtain ⟨_, _, _, h4, _⟩ := parseComposerLock_shape h
                  obtain ⟨b, h4⟩ := h4
                  rw [h4]; rfl
                · split at h
                  · obtain ⟨_, _, _, h4, _⟩ := parseNugetLock_shape h
                    rw [h4]; rfl
                  · split at h
                    · obtain ⟨_, _, _, h4, _⟩ := parseMavenPom_shape h
                      obtain ⟨b, h4, _⟩ := h4
                      rw [h4]; rfl
                    · simp at h

/-! ## Claim C1: dev-exclusion policy -/

/-- C1 (amended): when the dev-inclusion flag is false, the npm, poetry,
composer and maven parsers drop exactly the records they classify as dev
(truthy `dev` field) and no others — a flag-off run equals the flag-on run
filtered to its non-dev records, so the survivors keep identical fields.
The requirements (pip) parser, however, never consults the flag: its
path-contains-"dev"-or-"test" heuristic only sets the record's `dev` flag,
and the record is emitted either way, as the final concrete conjunct
exhibits. -/
theorem c1_dev_exclusion :
    (∀ (fp : String) (content : Option String),
        parseNpmLockfile false fp content =
          (parseNpmLockfile true fp content).filter nonDev ∧
        parsePoetryLock false fp content =
          (parsePoetryLock true fp content).filter nonDev ∧
        parseComposerLock false fp content =
          (parseComposerLock true fp content).filter nonDev ∧
        parseMavenPom false fp content =
          (parseMavenPom true fp content).filter nonDev) ∧
    parseRequirements "dev.txt" (some "flask==1.0.0") =
      [{ ecosystem := "pypi", name := JVal.jstr "flask", version := JVal.jstr "1.0.0",
         dev := JVal.jbool true, lockfile_source := "dev.txt" }] := by
  refine ⟨fun fp content => ⟨parseNpmLockfile_filter fp content,
    parsePoetryLock_filter fp content, parseComposerLock_filter fp content,
    parseMavenPom_filter fp content⟩, ?_⟩
  rfl

/-- C1 counterexample: dispatching a requirements entry with the
dev-inclusion flag false emits the record the parser classified as dev
(`dev` is `true`, a truthy value) instead of dropping it — the claim's
drop-entirely rule fails for the pip parser. -/
theorem c1_counterexample :
    (processEntry false (fun p => if p = "dev.txt" then some "flask==1.0.0" else none)
        "requirements:dev.txt").1 =
      [{ ecosystem := "pypi", name := JVal.jstr "flask", version := JVal.jstr "1.0.0",
         dev := JVal.jbool true, lockfile_source := "dev.txt" }] ∧
    truthy (JVal.jbool true) = true :=
  ⟨rfl, rfl⟩

/-! ## Claim C2: record field invariants -/

/-- C2 (amended): every emitted record carries its parser's fixed non-empty
ecosystem tag.  Name and version are non-empty strings for the poetry,
go.sum, go.mod, rubygems, cargo and maven parsers; the pip parser emits a
non-empty lowercased string name and a string version — `"*"` when no pin
is captured (final conjunct) — but that version string can be empty (see
the counterexample); the npm, composer and nuget parsers guarantee only a
JS-truthy version (composer also a truthy name), the npm and nuget names
being strings that can be empty when a JSON object key is empty. -/
theorem c2_record_invariant :
    (∀ fp content d, d ∈ parseRequirements fp content → ReqShape fp d) ∧
    (∀ inc fp content d, d ∈ parsePoetryLock inc fp content → PoetryShape fp d) ∧
    (∀ fp content d, d ∈ parseGoSum fp content → GoShape fp d) ∧
    (∀ fp content d, d ∈ parseGoMod fp content → GoShape fp d) ∧
    (∀ fp content d, d ∈ parseGemfileLock fp content → GemShape fp d) ∧
    (∀ fp content d, d ∈ parseCargoLock fp content → CargoShape fp d) ∧
    (∀ inc fp content d, d ∈ parseMavenPom inc fp content → MavenShape inc fp d) ∧
    (∀ inc fp content d, d ∈ parseNpmLockfile inc fp content → NpmShape fp d) ∧
    (∀ inc fp content d, d ∈ parseComposerLock inc fp content → ComposerShape fp d) ∧
    (∀ fp content d, d ∈ parseNugetLock fp content → NugetShape fp d) ∧
    (∀ fp, parseRequirements fp (some "flask") =
      [{ ecosystem := "pypi", name := JVal.jstr "flask", version := JVal.jstr "*",
         dev := JVal.jbool (strIncludes fp "dev" || strIncludes fp "test"),
         lockfile_source := fp }]) :=
  ⟨fun _ _ _ h => parseRequirements_shape h,
   fun _ _ _ _ h => parsePoetryLock_shape h,
   fun _ _ _ h => parseGoSum_shape h,
   fun _ _ _ h => parseGoMod_shape h,
   fun _ _ _ h => parseGemfileLock_shape h,
   fun _ _ _ h => parseCargoLock_shape h,
   fun _ _ _ _ h => parseMavenPom_shape h,
   fun _ _ _ _ h => parseNpmLockfile_shape h,
   fun _ _ _ _ h => parseComposerLock_shape h,
   fun _ _ _ h => parseNugetLock_shape h,
   fun _ => rfl⟩

/-- C2 counterexample: a requirements line whose captured version token
begins with a comma is cleaned to the empty string, so a record is emitted
with version `""` — not a non-empty version and not the `"*"` sentinel. -/
theorem c2_counterexample :
    parseRequirements "p" (some "flask ,") =
      [{ ecosystem := "pypi", name := JVal.jstr "flask", version := JVal.jstr "",
         dev := JVal.jbool false, lockfile_source := "p" }] ∧
    ("" : String) ≠ "*" ∧ ("" : String).length = 0 :=
  ⟨rfl, by decide, rfl⟩

/-- C2 witness: the shape invariant applied to a concrete pip parse. -/
theorem c2_record_invariant_witness :
    ReqShape "p" (Dep.mk "pypi" (JVal.jstr "flask") (JVal.jstr "*") (JVal.jbool false) "p") :=
  c2_record_invariant.1 "p" (some "flask") _ (by
    rw [show parseRequirements "p" (some "flask") =
      [{ ecosystem := "pypi", name := JVal.jstr "flask", version := JVal.jstr "*",
         dev := JVal.jbool false, lockfile_source := "p" }] from rfl]
    exact List.mem_singleton.mpr rfl)

/-! ## Claim C6: the requirements end-to-end example -/

/-- C6: parsing the five-line requirements content yields exactly three
records — flask 2.0.0, requests 2.28.0 and pytest 7.0.0, all ecosystem
pypi — while the comment line and the `-`-prefixed line yield none.  The
pip parser reads the dev-inclusion flag nowhere, so this is the flag-true
run for every file path. -/
theorem c6_requirements_example (fp : String) :
    (parseRequirements fp
        (some "flask==2.0.0\nrequests>=2.28.0\n# comment\n-r other.txt\npytest==7.0.0")).map
      (fun d => (d.ecosystem, d.name, d.version)) =
      [("pypi", JVal.jstr "flask", JVal.jstr "2.0.0"),
       ("pypi", JVal.jstr "requests", JVal.jstr "2.28.0"),
       ("pypi", JVal.jstr "pytest", JVal.jstr "7.0.0")] := rfl

/-! ## Claim C9: the dev field is always defined -/

/-- C9 (amended): every record any dispatched parser emits has a defined
`dev` field — never `undefined` — so the serializer's spread always emits a
`dev` key and its omit-when-undefined rule never fires on parser records;
every serialized dependency object of the pipeline therefore contains a
`dev` key.  The value, however, is not always a boolean: poetry can define
it as `null` (see the counterexample).  `lockfile_source` is serialized
exactly when the field is truthy (non-empty). -/
theorem c9_dev_always_defined :
    (∀ (inc : Bool) (fs : FS) (e : String) (d : Dep),
        d ∈ (processEntry inc fs e).1 → isUndef d.dev = false) ∧
    (∀ d : Dep, isUndef d.dev = false → ("dev", d.dev) ∈ serializeDep d) ∧
    (∀ d : Dep, (∃ v, ("lockfile_source", v) ∈ serializeDep d) ↔ d.lockfile_source ≠ "") ∧
    (∀ (inc : Bool) (fs : FS) (lf : String) (o : List (String × JVal)),
        o ∈ inventoryDeps inc fs lf → ∃ v, ("dev", v) ∈ o) := by
  refine ⟨fun inc fs e d h => processEntry_dev inc fs e d h, ?_, ?_, ?_⟩
  · intro d h
    simp [serializeDep, h]
  · intro d
    constructor
    · rintro ⟨v, hv⟩ hsrc
      simp [serializeDep, hsrc] at hv
    · intro hsrc
      exact ⟨JVal.jstr d.lockfile_source, by simp [serializeDep, hsrc]⟩
  · intro inc fs lf o ho
    simp only [inventoryDeps, List.mem_map] at ho
    obtain ⟨d, hd, rfl⟩ := ho
    have hdev : isUndef d.dev = false := by
      simp only [mainRecords] at hd
      split at hd
      · simp at hd
      · obtain ⟨e, _, hpe⟩ := runEntries_mem _ d (dedup_mem hd)
        exact processEntry_dev inc fs e d hpe
    exact ⟨d.dev, by simp [serializeDep, hdev]⟩

/-- C9 counterexample: a poetry `[[package]]` block without a `category`
line produces a record whose `dev` is `null` — defined, and serialized
under a `dev` key, yet neither `true` nor `false`. -/
theorem c9_counterexample :
    (parsePoetryLock true "p"
        (some "[[package]]\nname = \"requests\"\nversion = \"2.28.0\"")).map Dep.dev =
      [JVal.jnull] ∧
    JVal.jnull ≠ JVal.jbool true ∧ JVal.jnull ≠ JVal.jbool false ∧
    ("dev", JVal.jnull) ∈ serializeDep
      (Dep.mk "pypi" (JVal.jstr "requests") (JVal.jstr "2.28.0") JVal.jnull "p") := by
  refine ⟨rfl, fun h => JVal.noConfusion h, fun h => JVal.noConfusion h, ?_⟩
  simp [serializeDep, isUndef]

/-- C9 witness: the defined-`dev` fact applied to a concrete dispatched
requirements entry. -/
theorem c9_dev_always_defined_witness :
    isUndef (Dep.mk "pypi" (JVal.jstr "flask") (JVal.jstr "1.0.0")
      (JVal.jbool true) "dev.txt").dev = false :=
  c9_dev_always_defined.1 false
    (fun p => if p = "dev.txt" then some "flask==1.0.0" else none)
    "requirements:dev.txt" _ (by
      rw [show (processEntry false
          (fun p => if p = "dev.txt" then some "flask==1.0.0" else none)
          "requirements:dev.txt").1 =
        [Dep.mk "pypi" (JVal.jstr "flask") (JVal.jstr "1.0.0") (JVal.jbool true) "dev.txt"]
        from rfl]
      exact List.mem_singleton.mpr rfl)

/-! ## Claim C3: deduplication -/

theorem dedupAux_eq_keepFirsts :
    ∀ (l : List Dep) (seen : List String),
      dedupAux l seen =
        keepFirstsBy dedupKey (l.filter (fun d => !(seen.contains (dedupKey d)))) := by
  intro l
  induction l with
  | nil => intro seen; simp [dedupAux, keepFirstsBy]
  | cons d rest ih =>
    intro seen
    simp only [dedupAux, List.filter_cons]
    by_cases hs : seen.contains (dedupKey d) = true
    · rw [if_pos hs, hs]
      simp only [Bool.not_true, if_false]
      exact ih seen
    · rw [if_neg hs]
      have hs2 : seen.contains (dedupKey d) = false := by
        cases hx : seen.contains (dedupKey d)
        · rfl
        · exact absurd hx hs
      rw [hs2]
      simp only [Bool.not_false, if_true]
      rw [keepFirstsBy, ih (dedupKey d :: seen)]
      congr 1
      rw [List.filter_filter]
      have hpred : (fun e => !(dedupKey d :: seen).contains (dedupKey e)) =
          (fun e => !(dedupKey e == dedupKey d) && !(seen.contains (dedupKey e))) := by
        funext e
        simp only [List.contains_cons, Bool.not_or]
      rw [hpred]

theorem dedup_eq_keepFirsts (l : List Dep) : dedup l = keepFirstsBy dedupKey l := by
  have h := dedupAux_eq_keepFirsts l []
  simpa [dedup, List.filter_true] using h

/-- C3 (amended): the deduplicator returns exactly the keep-the-first-
occurrence subsequence of its input, where identity is equality of the
joined key string `ecosystem:name:version` built by JS string coercion of
the fields.  The survivor is the first occurrence itself, so its `dev` and
`source` values are retained, and the output is a subsequence of the input
in first-seen order.  On records whose joined keys are pairwise distinct
exactly when their `(ecosystem, name, version)` triples are, this is
identity on the exact triple; but distinct triples whose joined strings
coincide also collapse (see the counterexample). -/
theorem c3_dedup :
    (∀ l : List Dep, dedup l = keepFirstsBy dedupKey l) ∧
    (∀ l : List Dep, List.Sublist (dedup l) l) ∧
    (∀ d : Dep, dedupKey d =
      d.ecosystem ++ ":" ++ jsToString d.name ++ ":" ++ jsToString d.version) :=
  ⟨dedup_eq_keepFirsts, dedup_sublist, fun _ => rfl⟩

/-- C3 counterexample: two records with different `(ecosystem, name,
version)` triples but identical joined keys (`maven:a:b:c`) collapse to
one; the second record is the first occurrence of its own triple yet is
dropped, refuting per-exact-triple deduplication. -/
theorem c3_counterexample :
    dedup [Dep.mk "maven" (JVal.jstr "a:b") (JVal.jstr "c") (JVal.jbool false) "f",
           Dep.mk "maven" (JVal.jstr "a") (JVal.jstr "b:c") (JVal.jbool false) "g"] =
      [Dep.mk "maven" (JVal.jstr "a:b") (JVal.jstr "c") (JVal.jbool false) "f"] ∧
    (JVal.jstr "a:b", JVal.jstr "c") ≠ (JVal.jstr "a", JVal.jstr "b:c") := by
  refine ⟨rfl, ?_⟩
  intro h
  injection h with h1 h2
  injection h1 with h3
  exact absurd h3 (by decide)

/-! ## Entry splitting and joining lemmas -/

theorem splitFirstSeq_sound {sep : List Char} :
    ∀ {cs pre post : List Char}, splitFirstSeq sep cs = some (pre, post) →
      cs = pre ++ sep ++ post := by
  intro cs
  induction cs with
  | nil => intro pre post h; simp [splitFirstSeq] at h
  | cons c rest ih =>
    intro pre post h
    unfold splitFirstSeq at h
    split at h
    · rename_i hpre
      simp only [Option.some.injEq, Prod.mk.injEq] at h
      obtain ⟨h1, h2⟩ := h
      subst h1
      obtain ⟨t, ht⟩ := List.isPrefixOf_iff_prefix.mp hpre
      rw [← ht] at h2 ⊢
      rw [List.drop_left] at h2
      rw [← h2]
      simp
    · split at h
      · rename_i pre2 post2 hrec
        simp only [Option.some.injEq, Prod.mk.injEq] at h
        obtain ⟨h1, h2⟩ := h
        subst h1
        subst h2
        have := ih hrec
        rw [this]
        simp
      · simp at h

theorem splitFirstSeq_post_length {sep : List Char} (hsep : sep ≠ []) :
    ∀ {cs pre post : List Char}, splitFirstSeq sep cs = some (pre, post) →
      post.length < cs.length := by
  intro cs pre post h
  have hs := splitFirstSeq_sound h
  rw [hs]
  simp only [List.length_append]
  have : 0 < sep.length := List.length_pos.mpr hsep
  omega

theorem splitFirstSeq_none {sep : List Char} :
    ∀ {cs : List Char}, containsSeq sep cs = false → splitFirstSeq sep cs = none := by
  intro cs
  induction cs with
  | nil => intro h; rfl
  | cons c rest ih =>
    intro h
    simp only [containsSeq, Bool.or_eq_false_iff] at h
    unfold splitFirstSeq
    rw [if_neg (by rw [h.1]; exact fun hx => Bool.noConfusion hx)]
    rw [ih h.2]

theorem jsSplitSeqF_ne_nil (fuel : Nat) (sep cs : List Char) :
    jsSplitSeqF fuel sep cs ≠ [] := by
  cases fuel with
  | zero => simp [jsSplitSeqF]
  | succ fuel =>
    simp only [jsSplitSeqF]
    cases h : splitFirstSeq sep cs with
    | none => simp
    | some pp => simp

theorem joinSeq_cons (sep x : List Char) {xs : List (List Char)} (h : xs ≠ []) :
    joinSeq sep (x :: xs) = x ++ sep ++ joinSeq sep xs := by
  cases xs with
  | nil => exact absurd rfl h
  | cons y ys => rfl

theorem joinSeq_splitF {sep : List Char} (hsep : sep ≠ []) :
    ∀ (fuel : Nat) (cs : List Char), cs.length < fuel →
      joinSeq sep (jsSplitSeqF fuel sep cs) = cs := by
  intro fuel
  induction fuel with
  | zero => intro cs h; omega
  | succ fuel ih =>
    intro cs hlen
    simp only [jsSplitSeqF]
    cases hs : splitFirstSeq sep cs with
    | none => rfl
    | some pp =>
      obtain ⟨pre, post⟩ := pp
      rw [joinSeq_cons sep pre (jsSplitSeqF_ne_nil fuel sep post)]
      rw [ih post (by
        have := splitFirstSeq_post_length hsep hs
        omega)]
      exact (splitFirstSeq_sound hs).symm

theorem jsSplitSeqF_fuel {sep : List Char} (hsep : sep ≠ []) :
    ∀ (n m : Nat) (cs : List Char), cs.length < n → cs.length < m →
      jsSplitSeqF n sep cs = jsSplitSeqF m sep cs := by
  intro n
  induction n with
  | zero => intro m cs h1 h2; omega
  | succ n ih =>
    intro m cs h1 h2
    cases m with
    | zero => omega
    | succ m =>
      simp only [jsSplitSeqF]
      cases hs : splitFirstSeq sep cs with
      | none => rfl
      | some pp =>
        obtain ⟨pre, post⟩ := pp
        dsimp only
        have hl := splitFirstSeq_post_length hsep hs
        rw [ih m post (by omega) (by omega)]

theorem splitFirstSeq_colon (p : List Char) :
    ∀ (k : List Char), (':' ∈ k → False) →
      splitFirstSeq [':'] (k ++ ':' :: p) = some (k, p) := by
  intro k
  induction k with
  | nil =>
    intro _
    simp [splitFirstSeq, List.isPrefixOf]
  | cons c t ih =>
    intro hk
    have hc : (':' == c) = false := by
      cases hx : ':' == c
      · rfl
      · exact absurd (by
          have := beq_iff_eq.mp hx
          rw [← this]
          exact List.mem_cons_self ':' t) hk
    have hrec := ih (fun hm => hk (List.mem_cons_of_mem c hm))
    show splitFirstSeq [':'] (c :: (t ++ ':' :: p)) = some (c :: t, p)
    unfold splitFirstSeq
    have hcond : List.isPrefixOf [':'] (c :: (t ++ ':' :: p)) = false := by
      simp [List.isPrefixOf, hc]
    rw [hcond]
    rw [if_neg (by simp)]
    rw [hrec]

theorem string_mk_data (s : String) : (⟨s.data⟩ : String) = s := by
  cases s
  rfl

theorem entry_data (k p : String) :
    (k ++ ":" ++ p).data = k.data ++ ':' :: p.data := by
  rw [String.data_append, String.data_append, List.append_assoc]
  rfl

theorem entrySplit (k p : String) (hk : ':' ∈ k.data → False) :
    jsSplitStr ":" (k ++ ":" ++ p) = k :: jsSplitStr ":" p := by
  unfold jsSplitStr
  rw [entry_data k p]
  have hlen : (k ++ ":" ++ p).length = k.data.length + 1 + p.data.length := by
    show (k ++ ":" ++ p).data.length = _
    rw [entry_data k p]
    simp
    omega
  rw [hlen]
  have hstep : jsSplitSeqF (k.data.length + 1 + p.data.length + 1) [':']
      (k.data ++ ':' :: p.data) =
      k.data :: jsSplitSeqF (k.data.length + 1 + p.data.length) [':'] p.data := by
    simp only [jsSplitSeqF]
    rw [splitFirstSeq_colon p.data k.data hk]
  rw [show (":".data : List Char) = [':'] from rfl]
  rw [hstep]
  have hfuel : jsSplitSeqF (k.data.length + 1 + p.data.length) [':'] p.data =
      jsSplitSeqF (p.length + 1) [':'] p.data := by
    apply jsSplitSeqF_fuel (by intro hx; exact List.noConfusion hx)
    · show p.data.length < _
      omega
    · show p.data.length < p.data.length + 1
      omega
  rw [hfuel]
  simp only [List.map_cons]

theorem joinStr_split (p : String) : joinStr ":" (jsSplitStr ":" p) = p := by
  unfold joinStr jsSplitStr
  rw [List.map_map]
  have hmap : (String.data ∘ fun cs => (⟨cs⟩ : String)) = id := by
    funext cs
    rfl
  rw [hmap, List.map_id]
  rw [joinSeq_splitF (by intro hx; exact List.noConfusion hx) _ p.data
    (by show p.data.length < p.data.length + 1; omega)]

theorem entryPath_mk (k p : String) (hk : ':' ∈ k.data → False) :
    entryPath (k ++ ":" ++ p) = p := by
  unfold entryPath
  rw [entrySplit k p hk]
  simp only [List.tail_cons]
  exact joinStr_split p

theorem entryKind_mk (k p : String) (hk : ':' ∈ k.data → False) :
    entryKind (k ++ ":" ++ p) = k := by
  unfold entryKind
  rw [entrySplit k p hk]
  rfl

/-! ## Dispatch-loop helper lemmas -/

theorem str_append_empty (s : String) : s ++ "" = s := by
  cases s with
  | mk l =>
    show String.mk (l ++ []) = String.mk l
    rw [List.append_nil]

theorem entryPath_nocolon (e : String) (h : strIncludes e ":" = false) :
    entryPath e = "" := by
  unfold entryPath jsSplitStr
  simp only [jsSplitSeqF]
  rw [splitFirstSeq_none h]
  rfl

theorem processEntry_congr (inc : Bool) (fs1 fs2 : FS) (e : String)
    (h : fs1 (entryPath e) = fs2 (entryPath e)) :
    processEntry inc fs1 e = processEntry inc fs2 e := by
  simp only [processEntry]
  rw [h]

theorem runEntries_congr (inc : Bool) (fs1 fs2 : FS) :
    ∀ (l : List String), (∀ e, e ∈ l → fs1 (entryPath e) = fs2 (entryPath e)) →
      runEntries inc fs1 l = runEntries inc fs2 l := by
  intro l
  induction l with
  | nil => intro _; rfl
  | cons e rest ih =>
    intro h
    simp only [runEntries]
    rw [processEntry_congr inc fs1 fs2 e (h e (List.mem_cons_self e rest)),
      ih (fun x hx => h x (List.mem_cons_of_mem e hx))]

/-- C10: an entry whose path portion after the first colon is empty is
skipped silently: the dispatcher contributes no records and no warnings
for it.  The path portion is empty both for an entry with no colon at all
and for an entry `k ++ ":"` ending in its first colon, and the loop
processes the remaining entries unaffected. -/
theorem c10_empty_path :
    (∀ (inc : Bool) (fs : FS) (e : String), entryPath e = "" →
       processEntry inc fs e = ([], [])) ∧
    (∀ (e : String), strIncludes e ":" = false → entryPath e = "") ∧
    (∀ (k : String), (':' ∈ k.data → False) → entryPath (k ++ ":") = "") ∧
    (∀ (inc : Bool) (fs : FS) (e : String) (rest : List String),
       runEntries inc fs (e :: rest) =
         ((processEntry inc fs e).1 ++ (runEntries inc fs rest).1,
          (processEntry inc fs e).2 ++ (runEntries inc fs rest).2)) := by
  refine ⟨?_, ?_, ?_, ?_⟩
  · intro inc fs e h
    simp only [processEntry]
    rw [if_pos h]
  · intro e h
    exact entryPath_nocolon e h
  · intro k hk
    have h := entryPath_mk k "" hk
    rwa [str_append_empty] at h
  · intro inc fs e rest
    rfl

/-- C10 witness: the entry `npm` (a known kind but no colon, hence an empty
path) is skipped outright. -/
theorem c10_empty_path_witness :
    processEntry true (fun _ => some "x") "npm" = ([], []) ∧
    entryPath "npm" = "" ∧ entryPath ("npm" ++ ":") = "" :=
  ⟨c10_empty_path.1 true (fun _ => some "x") "npm"
     (c10_empty_path.2.1 "npm" (by decide)),
   c10_empty_path.2.1 "npm" (by decide),
   c10_empty_path.2.2.1 "npm" (by decide)⟩

/-- C5: for a `go` entry with a non-empty path the dispatcher calls the
go.sum parser exactly when the path ends with `go.sum` and the go.mod
parser otherwise; an entry with a non-empty path whose kind is none of the
nine recognized tags contributes no records, only the warning
`Unknown lockfile type: <kind>`, and the loop processes the remaining
entries unaffected. -/
theorem c5_dispatch :
    (∀ (inc : Bool) (fs : FS) (e p : String),
       entryKind e = "go" → entryPath e = p → p ≠ "" →
       processEntry inc fs e =
         ((if strEndsWith p "go.sum" then parseGoSum p (fs p)
           else parseGoMod p (fs p)), [])) ∧
    (∀ (inc : Bool) (fs : FS) (e : String),
       entryKind e ∉ knownKinds → entryPath e ≠ "" →
       processEntry inc fs e = ([], ["Unknown lockfile type: " ++ entryKind e])) ∧
    (∀ (inc : Bool) (fs : FS) (e : String) (rest : List String),
       runEntries inc fs (e :: rest) =
         ((processEntry inc fs e).1 ++ (runEntries inc fs rest).1,
          (processEntry inc fs e).2 ++ (runEntries inc fs rest).2)) := by
  refine ⟨?_, ?_, ?_⟩
  · intro inc fs e p hk hp hne
    simp only [processEntry]
    rw [hp, hk]
    rw [if_neg hne]
    rw [if_neg (by decide : ¬("go" = "npm")),
      if_neg (by decide : ¬("go" = "requirements")),
      if_neg (by decide : ¬("go" = "poetry")),
      if_pos rfl]
  · intro inc fs e hk hp
    simp only [knownKinds, List.mem_cons, List.mem_singleton, not_or] at hk
    obtain ⟨h1, h2, h3, h4, h5, h6, h7, h8, h9, _⟩ := hk
    simp only [processEntry]
    rw [if_neg hp, if_neg h1, if_neg h2, if_neg h3, if_neg h4, if_neg h5,
      if_neg h6, if_neg h7, if_neg h8, if_neg h9]
  · intro inc fs e rest
    rfl

/-- C5 witness: `go:a/go.sum` dispatches on the path suffix, and the
unknown kind `pip` only warns. -/
theorem c5_dispatch_witness :
    processEntry true (fun _ => none) "go:a/go.sum" =
      ((if strEndsWith "a/go.sum" "go.sum" then
          parseGoSum "a/go.sum" ((fun _ => none : FS) "a/go.sum")
        else parseGoMod "a/go.sum" ((fun _ => none : FS) "a/go.sum")), []) ∧
    processEntry true (fun _ => none) "pip:x" =
      ([], ["Unknown lockfile type: " ++ entryKind "pip:x"]) :=
  ⟨c5_dispatch.1 true (fun _ => none) "go:a/go.sum" "a/go.sum" rfl rfl (by decide),
   c5_dispatch.2.1 true (fun _ => none) "pip:x" (by decide) (by decide)⟩

/-- C4 counterexample: the `npm` entry for `c4NpmLock` raises a `TypeError`
mid-loop (reading `pkg.version` on the `null` value of `node_modules/b`),
yet the entry contributes one record, not zero: the record for `a` pushed
before the throw survives in the `catch`-returned array, while the valid
package `c` listed after the `null` entry is lost. -/
theorem c4_counterexample :
    processEntry true
        (fun p => if p = "package-lock.json" then some c4NpmLock else none)
        "npm:package-lock.json" =
      ([Dep.mk "npm" (JVal.jstr "a") (JVal.jstr "1.0") (JVal.jbool false)
          "package-lock.json"], []) := rfl

/-- C4 (amended): every parser returns `[]` when its file read throws, the
three JSON-based parsers return `[]` on unparseable JSON, a `null` package
value stops the npm v2/v3 loop returning exactly the records accumulated
so far (and a `null` element fails the composer loop with the accumulated
records as the caught payload), and the dispatch loop always continues
with the remaining entries: no parsing-layer failure aborts the run. -/
theorem c4_error_containment :
    (∀ (inc : Bool) (fp : String),
       parseNpmLockfile inc fp none = [] ∧ parseRequirements fp none = [] ∧
       parsePoetryLock inc fp none = [] ∧ parseGoSum fp none = [] ∧
       parseGoMod fp none = [] ∧ parseGemfileLock fp none = [] ∧
       parseCargoLock fp none = [] ∧ parseComposerLock inc fp none = [] ∧
       parseNugetLock fp none = [] ∧ parseMavenPom inc fp none = []) ∧
    (∀ (inc : Bool) (fp s : String), jsonParse s = none →
       parseNpmLockfile inc fp (some s) = [] ∧
       parseComposerLock inc fp (some s) = [] ∧
       parseNugetLock fp (some s) = []) ∧
    (∀ (inc : Bool) (fp name : String) (rest : List (String × JVal))
       (acc : List Dep), ¬(name = "") → ¬(npmName name = "") →
       npmPackagesLoop inc fp ((name, JVal.jnull) :: rest) acc = acc) ∧
    (∀ (fp : String) (isDev : Bool) (rest : List JVal) (acc : List Dep),
       composerLoop fp isDev (JVal.jnull :: rest) acc = Except.error acc) ∧
    (∀ (inc : Bool) (fs : FS) (e : String) (rest : List String),
       runEntries inc fs (e :: rest) =
         ((processEntry inc fs e).1 ++ (runEntries inc fs rest).1,
          (processEntry inc fs e).2 ++ (runEntries inc fs rest).2)) := by
  refine ⟨?_, ?_, ?_, ?_, ?_⟩
  · intro inc fp
    exact ⟨rfl, rfl, rfl, rfl, rfl, rfl, rfl, rfl, rfl, rfl⟩
  · intro inc fp s h
    refine ⟨?_, ?_, ?_⟩
    · simp only [parseNpmLockfile, h]
    · simp only [parseComposerLock, h]
    · simp only [parseNugetLock, h]
  · intro inc fp name rest acc h1 h2
    simp only [npmPackagesLoop]
    rw [if_neg h1, if_neg h2]
    rfl
  · intro fp isDev rest acc
    rfl
  · intro inc fs e rest
    rfl

/-- C4 witness: malformed JSON yields zero records from the npm parser,
and a `null` package entry returns the accumulated (here empty) records. -/
theorem c4_error_containment_witness :
    parseNpmLockfile true "p" (some "\x7b") = [] ∧
    npmPackagesLoop true "p" [("node_modules/x", JVal.jnull)] [] = [] :=
  ⟨(c4_error_containment.2.1 true "p" "\x7b" rfl).1,
   c4_error_containment.2.2.1 true "p" "node_modules/x" [] []
     (by decide) (by decide)⟩

/-- C8: the pipeline is deterministic in its configuration and the bytes
read: for one lockfile list and dev flag, two file systems that agree on
the content of every path the run reads produce the same dependencies
array (and the same warnings); in particular a rerun over byte-identical
inputs reproduces the inventory, the timestamp aside. -/
theorem c8_determinism (inc : Bool) (lf : String) (fs1 fs2 : FS)
    (h : ∀ e, e ∈ jsSplitStr "," lf → fs1 (entryPath e) = fs2 (entryPath e)) :
    inventoryDeps inc fs1 lf = inventoryDeps inc fs2 lf ∧
    mainRecords inc fs1 lf = mainRecords inc fs2 lf ∧
    mainWarnings inc fs1 lf = mainWarnings inc fs2 lf := by
  have hr : runEntries inc fs1 (jsSplitStr "," lf) =
      runEntries inc fs2 (jsSplitStr "," lf) :=
    runEntries_congr inc fs1 fs2 (jsSplitStr "," lf) h
  have hm : mainRecords inc fs1 lf = mainRecords inc fs2 lf := by
    unfold mainRecords
    by_cases hlf : lf = ""
    · rw [if_pos hlf, if_pos hlf]
    · rw [if_neg hlf, if_neg hlf, hr]
  refine ⟨?_, hm, ?_⟩
  · unfold inventoryDeps
    rw [hm]
  · unfold mainWarnings
    by_cases hlf : lf = ""
    · rw [if_pos hlf, if_pos hlf]
    · rw [if_neg hlf, if_neg hlf, hr]

/-- C8 witness: two file systems that agree on the one path read by the run
(`f`), but differ everywhere else, produce identical inventories. -/
theorem c8_determinism_witness :
    inventoryDeps true (fun p => if p = "f" then some "flask==1.0" else none)
        "requirements:f" =
      inventoryDeps true (fun p => if p = "f" then some "flask==1.0" else some "junk")
        "requirements:f" :=
  (c8_determinism true "requirements:f"
    (fun p => if p = "f" then some "flask==1.0" else none)
    (fun p => if p = "f" then some "flask==1.0" else some "junk")
    (by
      intro e he
      rw [show jsSplitStr "," "requirements:f" = ["requirements:f"] from rfl] at he
      simp only [List.mem_singleton] at he
      subst he
      rfl)).1

set_option maxRecDepth 100000

/-- C7: every record the maven parser emits has shape `MavenShape` - it is
named `groupId:artifactId` and its version never contains the unresolved
placeholder `$\x7b`; a block contributes a record marked dev exactly when
its trimmed scope is `test`, and with dev inclusion disabled a test-scoped
block contributes nothing; a dependency sitting inside a
`<dependencyManagement>` block yields no record - alone it produces an
empty inventory, and when the same coordinate also appears in a real
`<dependency>` block only that one record is emitted. -/
theorem c7_maven_pom :
    (∀ (inc : Bool) (fp : String) (content : Option String) (d : Dep),
       d ∈ parseMavenPom inc fp content → MavenShape inc fp d) ∧
    (∀ (inc : Bool) (fp : String) (acc : List Dep) (block : List Char) (d : Dep),
       d ∈ mavenBlockStep inc fp acc block → d ∈ acc ∨
         d.dev = JVal.jbool (mavenScopeOf block == "test")) ∧
    (∀ (fp : String) (acc : List Dep) (block : List Char),
       mavenScopeOf block = "test" → mavenBlockStep false fp acc block = acc) ∧
    (∀ (inc : Bool) (fp : String), parseMavenPom inc fp (some mavenDMOnlyPom) = []) ∧
    (∀ (inc : Bool) (fp : String), parseMavenPom inc fp (some mavenDMPom) =
       [Dep.mk "maven" (JVal.jstr "com.ex:lib") (JVal.jstr "1.0")
          (JVal.jbool false) fp]) := by
  refine ⟨?_, ?_, ?_, ?_, ?_⟩
  · intro inc fp content d h
    exact parseMavenPom_shape h
  · intro inc fp acc block d h
    simp only [mavenBlockStep] at h
    split at h
    · split at h
      · exact Or.inl h
      · split at h
        · exact Or.inl h
        · split at h
          · exact Or.inl h
          · simp only [List.mem_append, List.mem_singleton] at h
            rcases h with h | h
            · exact Or.inl h
            · subst h
              exact Or.inr rfl
    · exact Or.inl h
  · intro fp acc block hs
    simp only [mavenBlockStep]
    split
    · split
      · rfl
      · split
        · rfl
        · split
          · rfl
          · rename_i hskip
            exfalso
            apply hskip
            rw [show (match xmlTag "scope" block with
                | some s0 => jsTrim s0
                | none => "") = "test" from hs]
            decide
    · rfl
  · intro inc fp
    rfl
  · intro inc fp
    cases inc <;> rfl

/-- C7 witness: the record parsed from `mavenDMPom` has shape
`MavenShape`; the test-scoped block `mavenTestBlock` is marked dev from
its scope, and with dev inclusion disabled it contributes nothing. -/
theorem c7_maven_pom_witness :
    MavenShape true "pom.xml"
      (Dep.mk "maven" (JVal.jstr "com.ex:lib") (JVal.jstr "1.0")
        (JVal.jbool false) "pom.xml") ∧
    (Dep.mk "maven" (JVal.jstr "g:a") (JVal.jstr "3.0") (JVal.jbool true) "p"
        ∈ ([] : List Dep) ∨
      (Dep.mk "maven" (JVal.jstr "g:a") (JVal.jstr "3.0") (JVal.jbool true) "p").dev =
        JVal.jbool (mavenScopeOf mavenTestBlock.data == "test")) ∧
    mavenBlockStep false "p" [] mavenTestBlock.data = [] :=
  ⟨c7_maven_pom.1 true "pom.xml" (some mavenDMPom)
     (Dep.mk "maven" (JVal.jstr "com.ex:lib") (JVal.jstr "1.0")
       (JVal.jbool false) "pom.xml")
     (by
       rw [c7_maven_pom.2.2.2.2 true "pom.xml"]
       exact List.mem_singleton_self _),
   c7_maven_pom.2.1 true "p" [] mavenTestBlock.data
     (Dep.mk "maven" (JVal.jstr "g:a") (JVal.jstr "3.0") (JVal.jbool true) "p")
     (List.Mem.head _),
   c7_maven_pom.2.2.1 "p" [] mavenTestBlock.data rfl⟩
